import Mathlib

/-!
Verification development for the "tit" time-tracking tool (src/tit.py).

The program keeps, per project, three JSON collections:
  * an ordered ledger of uncommitted sessions (`uncommitted_sessions.json`),
    each a dict `{start, end?}` where a missing `end` means "in progress";
  * an ordered list of committed records (`committed_sessions.json`),
    each `{sessions, message, hash}`;
  * an ordered list of soft-deleted records (`deleted_sessions.json`).

We embed the state shallowly: instants are naturals (the textual timestamp
format of `format_datetime`/`fromisoformat` is an injective, order-preserving
encoding at second granularity, so comparing and subtracting parsed instants
is modelled by Nat/Int arithmetic), sessions and commit records are
structures, and each command is a pure function from the loaded state to the
saved state paired with the error it would print (`none` = success path).
An error return leaves the state component equal to the input, mirroring the
code paths that print a message and return before any `save_data` call.
-/

/-- One work interval, as stored in the ledger or inside a commit record.
`«end» = none` models a session dict without an `'end'` key (in progress). -/
structure Session where
  start : Nat
  «end» : Option Nat
deriving DecidableEq, Repr

/-- A commit record `{sessions, message, hash}` (field order follows the
dict built in `commit_session`). -/
structure Commit where
  sessions : List Session
  message : String
  hash : String
deriving DecidableEq, Repr

/-- The per-project persisted state: committed history, ledger, soft-deleted
history. -/
structure ProjectState where
  committed : List Commit
  uncommitted : List Session
  deleted : List Commit
deriving DecidableEq, Repr

/-- State of a freshly initialised project: all three files empty. -/
def emptyState : ProjectState := ⟨[], [], []⟩

/-- The user-facing error messages the commands can print.  Each constructor
stands for one `print(colored("Error: ...", 'red'))` site in the source. -/
inductive TitError where
  /-- "Error: A session is already in progress." -/
  | sessionInProgress
  /-- "Error: No session in progress." -/
  | noActiveSession
  /-- "Error: No session to commit." -/
  | nothingToCommit
  /-- "Error: Ambiguous hash '{p}' matches multiple commits." -/
  | ambiguousHash (partHash : String)
  /-- "Error: No commit found with hash starting with '{p}'." -/
  | commitNotFound (partHash : String)
  /-- "Error: Commit with hash '{h}' not found." (post-resolution scan) -/
  | commitMissing (fullHash : String)
deriving DecidableEq, Repr

/-- Python's `p.startswith(s)`: exact, case-sensitive character-by-character
comparison with no normalisation. -/
def startswith (p s : String) : Bool := List.isPrefixOf p.data s.data

/-- Function `format_datetime`: canonical textual form of an instant.  Modelled by the
decimal numeral; like the `%Y-%m-%dT%H:%M:%S` form it is injective. -/
def format_datetime (t : Nat) : String := toString t

/-! ## Canonical serialization and the commit hash

`generate_commit_hash(sessions)` is `sha1(json.dumps(sessions, sort_keys=True))`.
`json.dumps` with `sort_keys=True` serializes each session dict by emitting
its key/value items in sorted order, with `", "` and `": "` separators.  We
model a Python dict as its ordered item list `List (String × String)` and the
sort as an insertion sort by the lexicographic item order (Python sorts the
`(key, value)` item tuples; on real dicts keys are unique so this is the same
as sorting by key). -/

/-- A Python dict of string keys and string values, as its ordered item list. -/
abbrev PyDict := List (String × String)

/-- Python's `<` on strings: lexicographic comparison of code points. -/
def lexLt : List Char → List Char → Bool
  | [], [] => false
  | [], _ :: _ => true
  | _ :: _, [] => false
  | c :: cs, d :: ds =>
    if c.toNat < d.toNat then true
    else if d.toNat < c.toNat then false
    else lexLt cs ds

/-- Python's `<=` on strings. -/
def strLeb (a b : String) : Bool := !(lexLt b.data a.data)

/-- The order `sorted(d.items())` sorts by: lexicographic on the
`(key, value)` pair of strings. -/
def itemLeb (x y : String × String) : Bool :=
  lexLt x.1.data y.1.data || (x.1 == y.1 && strLeb x.2 y.2)

/-- Relation form of `itemLeb`, for `List.insertionSort`. -/
abbrev itemLe (a b : String × String) : Prop := itemLeb a b = true

instance : DecidableRel itemLe := fun a b =>
  inferInstanceAs (Decidable (itemLeb a b = true))

/-- JSON string escaping as far as our data needs it (quote and backslash;
the serialized values are timestamps and never contain either). -/
def jsonEscape (s : String) : String :=
  String.mk (s.data.foldr
    (fun c acc => if c = '"' ∨ c = '\\' then '\\' :: c :: acc else c :: acc) [])

/-- A JSON string literal. -/
def jsonStr (s : String) : String := "\"" ++ jsonEscape s ++ "\""

/-- One `"key": "value"` item. -/
def dumpItem (p : String × String) : String := jsonStr p.1 ++ ": " ++ jsonStr p.2

/-- Serialization `json.dumps` of one dict under `sort_keys=True`. -/
def dumpDictSorted (d : PyDict) : String :=
  "\x7b" ++ String.intercalate ", " ((List.insertionSort itemLe d).map dumpItem) ++ "\x7d"

/-- Serialization `json.dumps(sessions, sort_keys=True)`: the canonical serialization of the
session list. -/
def canonical_serialize (sessions : List PyDict) : String :=
  "[" ++ String.intercalate ", " (sessions.map dumpDictSorted) ++ "]"

/-- Modelled from the spec: the SHA1 digest (`hashlib.sha1(...).hexdigest()`)
is external library code, not part of this repository.  The spec uses it only
as a deterministic content digest of the serialized byte string, so we model
it as a fixed deterministic digest function producing a 40-hex-character
string of the input. -/
def sha1_hexdigest (s : String) : String :=
  let n := s.data.foldl (fun h c => (h * 31 + c.toNat + 1) % (2 ^ 160)) 7
  String.mk ((List.range 40).map (fun i =>
    let d := n / 16 ^ (39 - i) % 16
    if d < 10 then Char.ofNat (48 + d) else Char.ofNat (87 + d)))

/-- Function `generate_commit_hash(sessions)`: SHA1 of the canonical serialization. -/
def generate_commit_hash (sessions : List PyDict) : String :=
  sha1_hexdigest (canonical_serialize sessions)

/-- The dict a stored session corresponds to.  Insertion order in the program
is always `start` first (`start_session` creates `{'start': ...}`) and `end`
second (`stop_session` adds it; the edit parser also builds `start` then
`end`). -/
def sessionToDict (s : Session) : PyDict :=
  match s.«end» with
  | none => [("start", format_datetime s.start)]
  | some e => [("start", format_datetime s.start), ("end", format_datetime e)]

/-- Hash `generate_commit_hash` applied to structured sessions. -/
def gen_hash (ss : List Session) : String :=
  generate_commit_hash (ss.map sessionToDict)

/-! ## Commands -/

/-- Command `start_session`: refuses when the ledger is nonempty and its last session
has no `'end'` key; otherwise appends `{'start': now}`. -/
def start_session (now : Nat) (st : ProjectState) : ProjectState × Option TitError :=
  match st.uncommitted.getLast? with
  | some s =>
    if s.«end» = none then (st, some .sessionInProgress)
    else ({ st with uncommitted := st.uncommitted ++ [⟨now, none⟩] }, none)
  | none => ({ st with uncommitted := st.uncommitted ++ [⟨now, none⟩] }, none)

/-- Command `stop_session`: refuses when the ledger is empty or its last session is
already closed; otherwise sets the last session's `'end'` to now. -/
def stop_session (now : Nat) (st : ProjectState) : ProjectState × Option TitError :=
  match st.uncommitted.getLast? with
  | none => (st, some .noActiveSession)
  | some s =>
    if s.«end».isSome then (st, some .noActiveSession)
    else ({ st with
            uncommitted := st.uncommitted.dropLast ++ [{ s with «end» := some now }] },
          none)

/-- Command `commit_session(message)`: refuses when the ledger is empty or its last
session is open; otherwise appends `{sessions, message, hash}` to the
committed history and clears the ledger. -/
def commit_session (message : String) (st : ProjectState) : ProjectState × Option TitError :=
  match st.uncommitted.getLast? with
  | none => (st, some .nothingToCommit)
  | some s =>
    if s.«end» = none then (st, some .nothingToCommit)
    else
      ({ st with
          committed := st.committed ++ [⟨st.uncommitted, message, gen_hash st.uncommitted⟩],
          uncommitted := [] }, none)

/-- The `matches` list built by `resolve_commit_hash`: the hash of every
record in `committed_data + deleted_data` that starts with the given text. -/
def hash_matches (partHash : String) (committed_data deleted_data : List Commit) : List String :=
  ((committed_data ++ deleted_data).filter (fun c => startswith partHash c.hash)).map
    (fun c => c.hash)

/-- Function `resolve_commit_hash`: exactly one match resolves, zero or several fail. -/
def resolve_commit_hash (partHash : String) (committed_data deleted_data : List Commit) :
    Except TitError String :=
  match hash_matches partHash committed_data deleted_data with
  | [m] => .ok m
  | [] => .error (.commitNotFound partHash)
  | _ => .error (.ambiguousHash partHash)

/-- Command `purge_commit(commit_hash)`: resolve over both stores; erase the record
from whichever store holds it.  `confirm` is the interactive yes/no answer;
declining aborts with no mutation and no error message. -/
def purge_commit (partHash : String) (confirm : Bool) (st : ProjectState) :
    ProjectState × Option TitError :=
  match resolve_commit_hash partHash st.committed st.deleted with
  | .error e => (st, some e)
  | .ok full =>
    match st.committed.find? (fun c => c.hash == full) with
    | some r =>
      if confirm then ({ st with committed := st.committed.erase r }, none) else (st, none)
    | none =>
      match st.deleted.find? (fun c => c.hash == full) with
      | some r =>
        if confirm then ({ st with deleted := st.deleted.erase r }, none) else (st, none)
      | none => (st, some (.commitMissing full))

/-- Command `remove_commit(commit_hash)`: resolve over both stores; a hash held in
the committed store is moved to the soft-deleted store; a hash held only in
the soft-deleted store cascades into `purge_commit` (which asks `confirm`). -/
def remove_commit (partHash : String) (confirm : Bool) (st : ProjectState) :
    ProjectState × Option TitError :=
  match resolve_commit_hash partHash st.committed st.deleted with
  | .error e => (st, some e)
  | .ok full =>
    match st.committed.find? (fun c => c.hash == full) with
    | some r =>
      ({ st with committed := st.committed.erase r, deleted := st.deleted ++ [r] }, none)
    | none =>
      if (st.deleted.find? (fun c => c.hash == full)).isSome then
        purge_commit full confirm st
      else (st, some (.commitMissing full))

/-- Command `edit_commit(commit_hash)` with the editor round-trip factored out: the
caller supplies the message and session list parsed back from the edited
text.  Resolution happens over the committed store only (`deleted_data` is
passed as `[]` in the source).  An empty session list deletes the record;
otherwise message and sessions are replaced in place and the hash is
recomputed from the new sessions. -/
def edit_commit (partHash : String) (newMessage : String) (newSessions : List Session)
    (st : ProjectState) : ProjectState × Option TitError :=
  match resolve_commit_hash partHash st.committed [] with
  | .error e => (st, some e)
  | .ok full =>
    match st.committed.findIdx? (fun c => c.hash == full) with
    | none => (st, some (.commitMissing full))
    | some i =>
      if newSessions.isEmpty then
        ({ st with committed := st.committed.eraseIdx i }, none)
      else
        ({ st with
            committed := st.committed.set i ⟨newSessions, newMessage, gen_hash newSessions⟩ },
          none)

/-! ## The `time` query (`show_total_time`) -/

/-- Duration of one committed session: `fromisoformat(end) - fromisoformat(start)`.
A missing `'end'` key makes `fromisoformat(None)` raise, modelled as `none`. -/
def session_dur (s : Session) : Option Int :=
  match s.«end» with
  | some e => some ((e : Int) - (s.start : Int))
  | none => none

/-- Total duration of one record's session list. -/
def sessions_total (l : List Session) : Option Int :=
  l.foldl (fun acc s => do pure ((← acc) + (← session_dur s))) (some 0)

/-- The committed part of `show_total_time`: records that also occur in the
deleted list are skipped (`if commit in deleted_data: continue`). -/
def committed_total (committed_data deleted_data : List Commit) : Option Int :=
  committed_data.foldl
    (fun acc c =>
      if c ∈ deleted_data then acc
      else do pure ((← acc) + (← sessions_total c.sessions)))
    (some 0)

/-- Duration of one ledger session; a missing end uses `datetime.now()`. -/
def uncommitted_dur (now : Nat) (s : Session) : Int :=
  ((s.«end».getD now : Nat) : Int) - (s.start : Int)

/-- The uncommitted part of `show_total_time`. -/
def uncommitted_total (now : Nat) (l : List Session) : Int :=
  l.foldl (fun acc s => acc + uncommitted_dur now s) 0

/-- The total the `time` command prints: committed plus uncommitted when the
uncommitted total is positive, the committed total alone otherwise.  `none`
models the uncaught exception on a malformed (open) committed session. -/
def show_total_time (now : Nat) (st : ProjectState) : Option Int := do
  let c ← committed_total st.committed st.deleted
  let u := uncommitted_total now st.uncommitted
  pure (if 0 < u then c + u else c)

/-! ## The export range filter -/

/-- A record's commit time: start of its first session, absent when the
record has no sessions. -/
def commit_time (c : Commit) : Option Nat := c.sessions.head?.map (fun s => s.start)

/-- The boundary time derived from one `--from`/`--to` argument: `none` when
the argument is absent or falsy, when no committed record carries that exact
hash, or when the found record has no sessions. -/
def bound_time (arg : Option String) (committed_data : List Commit) : Option Nat :=
  match arg with
  | none => none
  | some a =>
    if a = "" then none
    else (committed_data.find? (fun c => c.hash == a)).bind commit_time

/-- Whether a commit time passes the `from_time`/`to_time` window test of
`export_sessions` (the `none, none` case is unreachable there because the
filter only runs when at least one bound is present). -/
def in_range (ft tt : Option Nat) (t : Nat) : Bool :=
  match ft, tt with
  | some f, some u => decide (f ≤ t) && decide (t ≤ u)
  | some f, none => decide (f ≤ t)
  | none, some u => decide (t ≤ u)
  | none, none => false

/-- The commit-filtering stage of `export_sessions`: when at least one bound
resolves to a time, keep exactly the records whose commit time passes the
window test (records without a commit time are dropped); otherwise keep the
history unchanged. -/
def range_filter (from_commit to_commit : Option String) (committed_data : List Commit) :
    List Commit :=
  let ft := bound_time from_commit committed_data
  let tt := bound_time to_commit committed_data
  if ft.isSome || tt.isSome then
    committed_data.filter (fun c =>
      match commit_time c with
      | some t => in_range ft tt t
      | none => false)
  else committed_data

/-! ## Command sequences

One CLI invocation = one command applied to the loaded state.  `applyOp`
gives the state that ends up on disk: the new state on success, the old one
when the command printed an error and returned.  `now` is the value of
`datetime.now()` during the invocation (used by `start` and `stop` only). -/

/-- One invocation of a state-mutating command. -/
inductive TitOp where
  | opStart
  | opStop
  | opCommit (message : String)
  | opRemove (partHash : String) (confirm : Bool)
  | opPurge (partHash : String) (confirm : Bool)
  | opEdit (partHash : String) (newMessage : String) (newSessions : List Session)
deriving DecidableEq, Repr

/-- Whether the invocation is the `edit` command. -/
def TitOp.isEdit : TitOp → Bool
  | .opEdit _ _ _ => true
  | _ => false

/-- The on-disk state after one invocation. -/
def applyOp (o : TitOp) (now : Nat) (st : ProjectState) : ProjectState :=
  match o with
  | .opStart => (start_session now st).1
  | .opStop => (stop_session now st).1
  | .opCommit m => (commit_session m st).1
  | .opRemove p c => (remove_commit p c st).1
  | .opPurge p c => (purge_commit p c st).1
  | .opEdit p m ns => (edit_commit p m ns st).1

/-- The state after a whole sequence of invocations, each paired with its
clock reading. -/
def applyOps (l : List (TitOp × Nat)) (st : ProjectState) : ProjectState :=
  l.foldl (fun s q => applyOp q.1 q.2 s) st

/-- No commit record is simultaneously present in the committed and the
soft-deleted store. -/
def StoresDisjoint (st : ProjectState) : Prop :=
  ∀ c ∈ st.committed, c ∉ st.deleted

instance (st : ProjectState) : Decidable (StoresDisjoint st) :=
  inferInstanceAs (Decidable (∀ c ∈ st.committed, c ∉ st.deleted))

/-- Every ledger session other than the last one is closed (the data-model
invariant on ledger states). -/
def LedgerWF (l : List Session) : Prop :=
  ∀ s ∈ l.dropLast, (s.«end»).isSome = true

/-- States reachable from a fresh project by sequences of `start`, `stop`,
`commit`, `remove` and `purge` invocations (no `edit`) whose clock readings
never repeat: each step reads a clock at least as late as the bound carried
by the relation, and bumps the bound past its own reading. -/
inductive Reached : ProjectState → Nat → Prop where
  | init : Reached emptyState 0
  | step {st t} (o : TitOp) (now : Nat) (h : Reached st t) (hle : t ≤ now)
      (hdel : o.isEdit = false) : Reached (applyOp o now st) (now + 1)

instance (l : List Session) : Decidable (LedgerWF l) :=
  inferInstanceAs (Decidable (∀ s ∈ l.dropLast, (s.«end»).isSome = true))

instance : DecidableEq (Except TitError String) := fun x y =>
  match x, y with
  | .ok a, .ok b =>
    if h : a = b then isTrue (by rw [h]) else isFalse (fun hc => by injection hc; contradiction)
  | .error a, .error b =>
    if h : a = b then isTrue (by rw [h]) else isFalse (fun hc => by injection hc; contradiction)
  | .ok _, .error _ => isFalse (fun hc => by cases hc)
  | .error _, .ok _ => isFalse (fun hc => by cases hc)

/-- The total described by the spec: elapsed time of every session of every
record in the committed store, plus elapsed time of every ledger session,
an open session ending at `now` for the computation. -/
def spec_total_time (now : Nat) (st : ProjectState) : Int :=
  (st.committed.map (fun c => (c.sessions.map (uncommitted_dur now)).sum)).sum
    + (st.uncommitted.map (uncommitted_dur now)).sum

/-- Strengthened invariant: stores disjoint and duplicate-free, every start
instant in the state below the clock bound, and every stored record's
session starts strictly below every ledger session start (stored records
were completed before the current ledger sessions began). -/
def StateInv (st : ProjectState) (t : Nat) : Prop :=
  StoresDisjoint st
  ∧ (st.committed ++ st.deleted).Nodup
  ∧ (∀ u ∈ st.uncommitted, u.start < t)
  ∧ (∀ c ∈ st.committed ++ st.deleted, ∀ s ∈ c.sessions, s.start < t)
  ∧ (∀ c ∈ st.committed ++ st.deleted, ∀ s ∈ c.sessions, ∀ u ∈ st.uncommitted,
      s.start < u.start)

/-! ## Shared helper lemmas -/

/-- A filter by a stronger predicate of a list whose weaker filter is empty
is empty. -/
theorem filter_eq_nil_of_imp {α : Type} {p q : α → Bool} {l : List α}
    (himp : ∀ a, q a = true → p a = true) (h : l.filter p = []) : l.filter q = [] := by
  rw [List.filter_eq_nil_iff] at h ⊢
  exact fun a ha hq => h a ha (himp a hq)

/-- A filter by a stronger predicate keeps a singleton filter result,
provided the single survivor also passes the stronger predicate. -/
theorem filter_eq_single_of_imp {α : Type} {p q : α → Bool} {l : List α} {e : α}
    (himp : ∀ a, q a = true → p a = true) (h : l.filter p = [e]) (he : q e = true) :
    l.filter q = [e] := by
  induction l with
  | nil => simp at h
  | cons x xs ih =>
    by_cases hx : p x = true
    · rw [List.filter_cons_of_pos hx] at h
      obtain ⟨hxe, htail⟩ := List.cons.injEq .. ▸ h
      subst hxe
      rw [List.filter_cons_of_pos he]
      rw [filter_eq_nil_of_imp himp htail]
    · rw [List.filter_cons_of_neg hx] at h
      have hqx : ¬q x = true := fun hq => hx (himp x hq)
      rw [List.filter_cons_of_neg hqx]
      exact ih h

/-- In a well-formed ledger whose last session is closed, every session is
closed. -/
theorem ledgerWF_all_closed {l : List Session} {s : Session} (hwf : LedgerWF l)
    (hl : l.getLast? = some s) (hs : (s.«end»).isSome = true) :
    ∀ x ∈ l, (x.«end»).isSome = true := by
  intro x hx
  have hne : l ≠ [] := by rintro rfl; simp at hl
  have hsplit := List.dropLast_append_getLast hne
  have hlast : l.getLast hne = s := by
    have := List.getLast?_eq_getLast l hne
    rw [this] at hl
    exact Option.some.injEq .. ▸ hl
  rw [← hsplit] at hx
  rcases List.mem_append.mp hx with hx | hx
  · exact hwf x hx
  · rcases List.mem_singleton.mp hx with rfl
    rw [hlast]; exact hs

/-! ## C5: hash prefix resolution -/

/-- C5.  Resolution collects, across both supplied stores, every candidate
hash that starts with the given text (exact, case-sensitive comparison);
exactly one match resolves to that full hash, zero matches fail NotFound,
several matches fail Ambiguous, and a full hash present exactly once among
equal-length candidate hashes always resolves to itself. -/
theorem resolve_commit_hash_spec (p : String) (committed_data deleted_data : List Commit) :
    (∀ h, h ∈ hash_matches p committed_data deleted_data ↔
      ∃ c, c ∈ committed_data ++ deleted_data ∧ c.hash = h ∧ startswith p h = true)
    ∧ (∀ h, hash_matches p committed_data deleted_data = [h] →
        resolve_commit_hash p committed_data deleted_data = .ok h)
    ∧ (hash_matches p committed_data deleted_data = [] →
        resolve_commit_hash p committed_data deleted_data = .error (.commitNotFound p))
    ∧ (∀ h₁ h₂ hs, hash_matches p committed_data deleted_data = h₁ :: h₂ :: hs →
        resolve_commit_hash p committed_data deleted_data = .error (.ambiguousHash p))
    ∧ (∀ h, (∀ c ∈ committed_data ++ deleted_data, c.hash.length = h.length) →
        (committed_data ++ deleted_data).countP (fun c => c.hash == h) = 1 →
        resolve_commit_hash h committed_data deleted_data = .ok h) := by
  refine ⟨?_, ?_, ?_, ?_, ?_⟩
  · intro h
    simp only [hash_matches, List.mem_map, List.mem_filter]
    constructor
    · rintro ⟨c, ⟨hc, hf⟩, rfl⟩
      exact ⟨c, hc, rfl, hf⟩
    · rintro ⟨c, hc, rfl, hf⟩
      exact ⟨c, ⟨hc, hf⟩, rfl⟩
  · intro h hm
    rw [resolve_commit_hash, hm]
  · intro hm
    rw [resolve_commit_hash, hm]
  · intro h₁ h₂ hs hm
    rw [resolve_commit_hash, hm]
  · intro h hlen hcount
    have hpt : ∀ c ∈ committed_data ++ deleted_data,
        startswith h c.hash = (c.hash == h) := by
      intro c hc
      by_cases hb : c.hash = h
      · subst hb
        rw [beq_self_eq_true, startswith]
        exact List.isPrefixOf_iff_prefix.mpr (List.prefix_refl _)
      · have : startswith h c.hash = false := by
          rw [startswith]
          by_contra hcon
          rw [Bool.not_eq_false, List.isPrefixOf_iff_prefix] at hcon
          have := List.IsPrefix.eq_of_length hcon (hlen c hc).symm
          exact hb (String.ext this).symm
        rw [this]
        simp [hb]
    rw [List.countP_eq_length_filter] at hcount
    obtain ⟨e, he⟩ := List.length_eq_one.mp hcount
    have hemem := List.mem_filter.mp (he ▸ List.mem_singleton_self e)
    have heq : e.hash = h := by simpa using hemem.2
    have hfilter : (committed_data ++ deleted_data).filter (fun c => startswith h c.hash) = [e] := by
      rw [List.filter_congr (fun c hc => hpt c hc)]
      exact he
    have hm : hash_matches h committed_data deleted_data = [h] := by
      rw [hash_matches, hfilter, List.map_singleton, heq]
    rw [resolve_commit_hash, hm]


/-- Concrete instance of C5 on the spec's own example candidates. -/
theorem resolve_commit_hash_spec_witness :
    resolve_commit_hash "abc" [⟨[], "m1", "abc123"⟩] [⟨[], "m2", "abc999"⟩]
        = .error (.ambiguousHash "abc")
    ∧ resolve_commit_hash "abc1" [⟨[], "m1", "abc123"⟩] [⟨[], "m2", "abc999"⟩] = .ok "abc123"
    ∧ resolve_commit_hash "xyz" [⟨[], "m1", "abc123"⟩] [⟨[], "m2", "abc999"⟩]
        = .error (.commitNotFound "xyz")
    ∧ resolve_commit_hash "abc123" [⟨[], "m1", "abc123"⟩] [⟨[], "m2", "abc999"⟩]
        = .ok "abc123" := by
  refine ⟨?_, ?_, ?_, ?_⟩
  · exact (resolve_commit_hash_spec "abc" _ _).2.2.2.1 "abc123" "abc999" [] (by decide)
  · exact (resolve_commit_hash_spec "abc1" _ _).2.1 "abc123" (by decide)
  · exact (resolve_commit_hash_spec "xyz" _ _).2.2.1 (by decide)
  · exact (resolve_commit_hash_spec "abc123" _ _).2.2.2.2 "abc123" (by decide) (by decide)

/-! ## C1: commit -/

/-- C1.  On a well-formed ledger, commit fails exactly when the ledger is
empty or its last session is open; a failure mutates nothing; a success
clears the ledger, lengthens the history by exactly one, and the appended
record carries exactly the ledger's sessions, all of them closed. -/
theorem commit_session_spec (m : String) (st : ProjectState)
    (hwf : LedgerWF st.uncommitted) :
    ((commit_session m st).2.isSome = true ↔
      st.uncommitted = [] ∨ ∃ s, st.uncommitted.getLast? = some s ∧ s.«end» = none)
    ∧ ((commit_session m st).2.isSome = true → (commit_session m st).1 = st)
    ∧ ((commit_session m st).2 = none →
        (commit_session m st).1.uncommitted = []
        ∧ (commit_session m st).1.committed.length = st.committed.length + 1
        ∧ (commit_session m st).1.committed
            = st.committed ++ [⟨st.uncommitted, m, gen_hash st.uncommitted⟩]
        ∧ ∀ s ∈ st.uncommitted, (s.«end»).isSome = true) := by
  rcases hl : st.uncommitted.getLast? with _ | s
  · have hnil : st.uncommitted = [] := List.getLast?_eq_none_iff.mp hl
    have hcs : commit_session m st = (st, some .nothingToCommit) := by
      unfold commit_session; rw [hl]
    rw [hcs]
    exact ⟨by simp [hnil], fun _ => rfl, fun h => absurd h (Option.some_ne_none _)⟩
  · have hne : st.uncommitted ≠ [] := fun h0 => by rw [h0] at hl; cases hl
    rcases he : s.«end» with _ | e
    · have hcs : commit_session m st = (st, some .nothingToCommit) := by
        unfold commit_session; rw [hl]; dsimp only; rw [if_pos he]
      rw [hcs]
      refine ⟨?_, fun _ => rfl, fun h => absurd h (Option.some_ne_none _)⟩
      simp only [Option.isSome_some, true_iff]
      exact Or.inr ⟨s, rfl, he⟩
    · have hsome : ¬s.«end» = none := by rw [he]; exact fun h => by cases h
      have hcs : commit_session m st =
          ({ st with
              committed := st.committed ++ [⟨st.uncommitted, m, gen_hash st.uncommitted⟩],
              uncommitted := [] }, none) := by
        unfold commit_session; rw [hl]; dsimp only; rw [if_neg hsome]
      rw [hcs]
      refine ⟨?_, ?_, ?_⟩
      · constructor
        · intro h; simp at h
        · rintro (h0 | ⟨s', hs', hs'e⟩)
          · exact absurd h0 hne
          · injection hs' with hs'
            subst hs'
            rw [he] at hs'e
            exact Option.noConfusion hs'e
      · intro h; simp at h
      · intro _
        exact ⟨rfl, by simp, rfl, ledgerWF_all_closed hwf hl (by rw [he]; rfl)⟩

/-- Concrete instance of C1: committing a one-session ledger succeeds and
moves the session into a single appended record; committing an in-progress
ledger fails and mutates nothing. -/
theorem commit_session_spec_witness :
    ((commit_session "A" ⟨[], [⟨0, some 60⟩], []⟩).2 = none
      → (commit_session "A" ⟨[], [⟨0, some 60⟩], []⟩).1.uncommitted = []
        ∧ (commit_session "A" ⟨[], [⟨0, some 60⟩], []⟩).1.committed.length = 0 + 1
        ∧ (commit_session "A" ⟨[], [⟨0, some 60⟩], []⟩).1.committed
            = [] ++ [⟨[⟨0, some 60⟩], "A", gen_hash [⟨0, some 60⟩]⟩]
        ∧ ∀ s ∈ [(⟨0, some 60⟩ : Session)], (s.«end»).isSome = true)
    ∧ ((commit_session "B" ⟨[], [⟨0, none⟩], []⟩).2.isSome = true
        → (commit_session "B" ⟨[], [⟨0, none⟩], []⟩).1 = ⟨[], [⟨0, none⟩], []⟩) := by
  constructor
  · exact (commit_session_spec "A" ⟨[], [⟨0, some 60⟩], []⟩ (by decide)).2.2
  · exact (commit_session_spec "B" ⟨[], [⟨0, none⟩], []⟩ (by decide)).2.1

/-! ## C2: ledger invariant under start/stop -/

/-- Command `start` preserves ledger well-formedness. -/
theorem ledgerWF_start (now : Nat) (st : ProjectState) (h : LedgerWF st.uncommitted) :
    LedgerWF (start_session now st).1.uncommitted := by
  rcases hl : st.uncommitted.getLast? with _ | s
  · have hnil : st.uncommitted = [] := List.getLast?_eq_none_iff.mp hl
    have hs : (start_session now st).1.uncommitted = st.uncommitted ++ [⟨now, none⟩] := by
      unfold start_session; rw [hl]
    rw [hs, LedgerWF, List.dropLast_concat, hnil]
    intro x hx
    exact absurd hx (List.not_mem_nil x)
  · rcases he : s.«end» with _ | e
    · have hs : (start_session now st).1 = st := by
        unfold start_session; rw [hl]; dsimp only; rw [if_pos he]
      rw [hs]; exact h
    · have hsome : ¬s.«end» = none := by rw [he]; exact fun h0 => by cases h0
      have hs : (start_session now st).1.uncommitted = st.uncommitted ++ [⟨now, none⟩] := by
        unfold start_session; rw [hl]; dsimp only; rw [if_neg hsome]
      rw [hs, LedgerWF, List.dropLast_concat]
      exact ledgerWF_all_closed h hl (by rw [he]; rfl)

/-- Command `stop` preserves ledger well-formedness. -/
theorem ledgerWF_stop (now : Nat) (st : ProjectState) (h : LedgerWF st.uncommitted) :
    LedgerWF (stop_session now st).1.uncommitted := by
  rcases hl : st.uncommitted.getLast? with _ | s
  · have hs : (stop_session now st).1 = st := by
      unfold stop_session; rw [hl]
    rw [hs]; exact h
  · rcases he : s.«end» with _ | e
    · have hnotsome : (s.«end»).isSome ≠ true := by rw [he]; exact fun h0 => by cases h0
      have hs : (stop_session now st).1.uncommitted
          = st.uncommitted.dropLast ++ [{ s with «end» := some now }] := by
        unfold stop_session; rw [hl]; dsimp only; rw [if_neg hnotsome]
      rw [hs, LedgerWF, List.dropLast_concat]
      exact fun x hx => h x hx
    · have hsome : (s.«end»).isSome = true := by rw [he]; rfl
      have hs : (stop_session now st).1 = st := by
        unfold stop_session; rw [hl]; dsimp only; rw [if_pos hsome]
      rw [hs]; exact h

/-- Sequences of start/stop invocations preserve ledger well-formedness. -/
theorem ledgerWF_applyOps (ops : List (TitOp × Nat)) (st : ProjectState)
    (hops : ∀ q ∈ ops, q.1 = TitOp.opStart ∨ q.1 = TitOp.opStop)
    (h : LedgerWF st.uncommitted) : LedgerWF (applyOps ops st).uncommitted := by
  induction ops generalizing st with
  | nil => exact h
  | cons q qs ih =>
    have hq := hops q (List.mem_cons_self q qs)
    have hstep : LedgerWF (applyOp q.1 q.2 st).uncommitted := by
      rcases hq with hq | hq <;> rw [hq, applyOp]
      · exact ledgerWF_start q.2 st h
      · exact ledgerWF_stop q.2 st h
    have : applyOps (q :: qs) st = applyOps qs (applyOp q.1 q.2 st) := by
      rw [applyOps, applyOps, List.foldl_cons]
    rw [this]
    exact ih (applyOp q.1 q.2 st) (fun r hr => hops r (List.mem_cons_of_mem q hr)) hstep

/-- A well-formed ledger holds at most one open session. -/
theorem ledgerWF_open_count {l : List Session} (h : LedgerWF l) :
    (l.filter (fun s => (s.«end»).isNone)).length ≤ 1 := by
  rcases List.eq_nil_or_concat l with rfl | ⟨l', a, rfl⟩
  · simp
  · rw [List.concat_eq_append] at h ⊢
    rw [List.filter_append]
    have h' : l'.filter (fun s => (s.«end»).isNone) = [] := by
      rw [List.filter_eq_nil_iff]
      intro x hx
      have := h x (by rw [List.dropLast_concat]; exact hx)
      simp only [Option.isNone_iff_eq_none]
      exact Option.isSome_iff_ne_none.mp this
    rw [h']
    simp only [List.nil_append]
    rcases ha : (a.«end»).isNone with _ | _
    · simp [List.filter, ha]
    · simp [List.filter, ha]

/-- In a well-formed ledger, an open session can only sit at the last
position. -/
theorem ledgerWF_open_last {l : List Session} (h : LedgerWF l) :
    ∀ i (hi : i < l.length), (l.get ⟨i, hi⟩).«end» = none → i = l.length - 1 := by
  intro i hi hopen
  by_contra hne
  have hlt : i < l.dropLast.length := by
    rw [List.length_dropLast]
    omega
  have hmem : l.get ⟨i, hi⟩ ∈ l.dropLast := by
    rw [List.get_eq_getElem, ← List.getElem_dropLast l i hlt]
    exact List.getElem_mem hlt
  have := h _ hmem
  rw [hopen] at this
  cases this

/-- C2.  Any sequence of start/stop invocations on an initially empty ledger
keeps at most one open session, always in last position; start fails with
SessionInProgress exactly when the last session is open, stop fails with
NoActiveSession exactly when the ledger is empty or the last session is
already closed. -/
theorem ledger_start_stop_spec :
    (∀ (ops : List (TitOp × Nat)) (st0 : ProjectState),
      (∀ q ∈ ops, q.1 = TitOp.opStart ∨ q.1 = TitOp.opStop) →
      st0.uncommitted = [] →
      ((applyOps ops st0).uncommitted.filter (fun s => (s.«end»).isNone)).length ≤ 1
      ∧ ∀ i (hi : i < (applyOps ops st0).uncommitted.length),
          ((applyOps ops st0).uncommitted.get ⟨i, hi⟩).«end» = none →
          i = (applyOps ops st0).uncommitted.length - 1)
    ∧ (∀ (now : Nat) (st : ProjectState),
        (start_session now st).2 = some .sessionInProgress ↔
          ∃ s, st.uncommitted.getLast? = some s ∧ s.«end» = none)
    ∧ (∀ (now : Nat) (st : ProjectState),
        (stop_session now st).2 = some .noActiveSession ↔
          st.uncommitted = [] ∨
            ∃ s, st.uncommitted.getLast? = some s ∧ (s.«end»).isSome = true) := by
  refine ⟨?_, ?_, ?_⟩
  · intro ops st0 hops hnil
    have hwf0 : LedgerWF st0.uncommitted := by
      rw [hnil]; intro x hx; exact absurd hx (List.not_mem_nil x)
    have hwf := ledgerWF_applyOps ops st0 hops hwf0
    exact ⟨ledgerWF_open_count hwf, ledgerWF_open_last hwf⟩
  · intro now st
    rcases hl : st.uncommitted.getLast? with _ | s
    · have hs : start_session now st = ({ st with uncommitted := st.uncommitted ++ [⟨now, none⟩] }, none) := by
        unfold start_session; rw [hl]
      rw [hs]
      constructor
      · intro h; cases h
      · rintro ⟨s, hs', _⟩; cases hs'
    · rcases he : s.«end» with _ | e
      · have hs : start_session now st = (st, some .sessionInProgress) := by
          unfold start_session; rw [hl]; dsimp only; rw [if_pos he]
        rw [hs]
        exact ⟨fun _ => ⟨s, rfl, he⟩, fun _ => rfl⟩
      · have hsome : ¬s.«end» = none := by rw [he]; exact fun h0 => by cases h0
        have hs : start_session now st
            = ({ st with uncommitted := st.uncommitted ++ [⟨now, none⟩] }, none) := by
          unfold start_session; rw [hl]; dsimp only; rw [if_neg hsome]
        rw [hs]
        constructor
        · intro h; cases h
        · rintro ⟨s', hs', hs'e⟩
          injection hs' with hs'
          subst hs'
          exact absurd hs'e hsome
  · intro now st
    rcases hl : st.uncommitted.getLast? with _ | s
    · have hnil : st.uncommitted = [] := List.getLast?_eq_none_iff.mp hl
      have hs : stop_session now st = (st, some .noActiveSession) := by
        unfold stop_session; rw [hl]
      rw [hs]
      exact ⟨fun _ => Or.inl hnil, fun _ => rfl⟩
    · have hne : st.uncommitted ≠ [] := fun h0 => by rw [h0] at hl; cases hl
      rcases he : s.«end» with _ | e
      · have hnotsome : (s.«end»).isSome ≠ true := by rw [he]; exact fun h0 => by cases h0
        have hs : stop_session now st
            = ({ st with
                  uncommitted := st.uncommitted.dropLast ++ [{ s with «end» := some now }] },
                none) := by
          unfold stop_session; rw [hl]; dsimp only; rw [if_neg hnotsome]
        rw [hs]
        constructor
        · intro h; cases h
        · rintro (h0 | ⟨s', hs', hs'e⟩)
          · exact absurd h0 hne
          · injection hs' with hs'
            subst hs'
            rw [he] at hs'e
            cases hs'e
      · have hsome : (s.«end»).isSome = true := by rw [he]; rfl
        have hs : stop_session now st = (st, some .noActiveSession) := by
          unfold stop_session; rw [hl]; dsimp only; rw [if_pos hsome]
        rw [hs]
        exact ⟨fun _ => Or.inr ⟨s, rfl, hsome⟩, fun _ => rfl⟩


/-- Concrete instance of C2: after start/stop/start the ledger has exactly
one open session, in last position; a second start fails; stop on a closed
ledger fails. -/
theorem ledger_start_stop_spec_witness :
    (((applyOps [(TitOp.opStart, 0), (TitOp.opStop, 60), (TitOp.opStart, 120)]
        emptyState).uncommitted.filter (fun s => (s.«end»).isNone)).length ≤ 1
      ∧ ∀ i (hi : i < (applyOps [(TitOp.opStart, 0), (TitOp.opStop, 60), (TitOp.opStart, 120)]
            emptyState).uncommitted.length),
          ((applyOps [(TitOp.opStart, 0), (TitOp.opStop, 60), (TitOp.opStart, 120)]
            emptyState).uncommitted.get ⟨i, hi⟩).«end» = none →
          i = (applyOps [(TitOp.opStart, 0), (TitOp.opStop, 60), (TitOp.opStart, 120)]
            emptyState).uncommitted.length - 1)
    ∧ ((start_session 180 ⟨[], [⟨120, none⟩], []⟩).2 = some .sessionInProgress
        ↔ ∃ s, ([(⟨120, none⟩ : Session)]).getLast? = some s ∧ s.«end» = none)
    ∧ ((stop_session 180 ⟨[], [⟨0, some 60⟩], []⟩).2 = some .noActiveSession
        ↔ [(⟨0, some 60⟩ : Session)] = [] ∨
            ∃ s, ([(⟨0, some 60⟩ : Session)]).getLast? = some s ∧ (s.«end»).isSome = true) := by
  refine ⟨?_, ?_, ?_⟩
  · exact ledger_start_stop_spec.1 [(TitOp.opStart, 0), (TitOp.opStop, 60), (TitOp.opStart, 120)]
      emptyState (by decide) rfl
  · exact ledger_start_stop_spec.2.1 180 ⟨[], [⟨120, none⟩], []⟩
  · exact ledger_start_stop_spec.2.2 180 ⟨[], [⟨0, some 60⟩], []⟩

/-! ## C8: edit -/

/-- C8.  When the hash resolves over the committed store and `i` is the
position of the matched record: a non-empty new session list replaces the
record in place at position `i` (history length and every other position
unchanged, hash recomputed from the new sessions); an empty new session list
deletes the record from history. -/
theorem edit_commit_spec (p m : String) (ns : List Session) (st : ProjectState)
    (full : String) (i : Nat)
    (hres : resolve_commit_hash p st.committed [] = .ok full)
    (hidx : st.committed.findIdx? (fun c => c.hash == full) = some i) :
    (ns ≠ [] →
      edit_commit p m ns st
          = ({ st with committed := st.committed.set i ⟨ns, m, gen_hash ns⟩ }, none)
        ∧ (st.committed.set i ⟨ns, m, gen_hash ns⟩).length = st.committed.length
        ∧ (st.committed.set i ⟨ns, m, gen_hash ns⟩)[i]?
            = some ⟨ns, m, gen_hash ns⟩
        ∧ ∀ j, j ≠ i →
            (st.committed.set i ⟨ns, m, gen_hash ns⟩)[j]? = st.committed[j]?)
    ∧ (ns = [] →
        edit_commit p m ns st = ({ st with committed := st.committed.eraseIdx i }, none)) := by
  have hlt : i < st.committed.length :=
    (List.findIdx?_eq_some_iff_findIdx_eq.mp hidx).1
  constructor
  · intro hne
    have hempty : ns.isEmpty = false := by
      rcases ns with _ | _
      · exact absurd rfl hne
      · rfl
    have heq : edit_commit p m ns st
        = ({ st with committed := st.committed.set i ⟨ns, m, gen_hash ns⟩ }, none) := by
      unfold edit_commit; rw [hres]; dsimp only; rw [hidx]; dsimp only; rw [hempty]; rfl
    refine ⟨heq, List.length_set .., List.getElem?_set_self hlt, ?_⟩
    intro j hj
    exact List.getElem?_set_ne (fun h0 => hj h0.symm)
  · rintro rfl
    unfold edit_commit; rw [hres]; dsimp only; rw [hidx]; rfl

/-- Concrete instance of C8 on a two-record history: a non-empty edit
rewrites position 0 in place, an empty edit deletes it. -/
theorem edit_commit_spec_witness :
    (edit_commit "aa" "new" [⟨0, some 60⟩]
        ⟨[⟨[⟨5, some 6⟩], "m1", "aaaa"⟩, ⟨[⟨7, some 8⟩], "m2", "bbbb"⟩], [], []⟩
      = (⟨[⟨[⟨0, some 60⟩], "new", gen_hash [⟨0, some 60⟩]⟩, ⟨[⟨7, some 8⟩], "m2", "bbbb"⟩],
          [], []⟩, none))
    ∧ (edit_commit "aa" "new" []
        ⟨[⟨[⟨5, some 6⟩], "m1", "aaaa"⟩, ⟨[⟨7, some 8⟩], "m2", "bbbb"⟩], [], []⟩
      = (⟨[⟨[⟨7, some 8⟩], "m2", "bbbb"⟩], [], []⟩, none)) := by
  constructor
  · exact ((edit_commit_spec "aa" "new" [⟨0, some 60⟩]
      ⟨[⟨[⟨5, some 6⟩], "m1", "aaaa"⟩, ⟨[⟨7, some 8⟩], "m2", "bbbb"⟩], [], []⟩
      "aaaa" 0 (by decide) (by decide)).1 (by decide)).1
  · exact (edit_commit_spec "aa" "new" []
      ⟨[⟨[⟨5, some 6⟩], "m1", "aaaa"⟩, ⟨[⟨7, some 8⟩], "m2", "bbbb"⟩], [], []⟩
      "aaaa" 0 (by decide) (by decide)).2 rfl

/-! ## C7: export range filtering -/

/-- C7.  When at least one bound resolves to a time, a record is retained
exactly when it has a commit time (start of its first session) lying within
the inclusive window; records without sessions are always dropped by the
filter; when no bound resolves the history passes through unfiltered; and a
bound is open-ended when its argument is absent or no committed record
carries that hash. -/
theorem range_filter_spec (fc tc : Option String) (committed_data : List Commit) :
    ((bound_time fc committed_data).isSome = true
        ∨ (bound_time tc committed_data).isSome = true →
      (∀ c, c ∈ range_filter fc tc committed_data ↔
        c ∈ committed_data ∧ ∃ t, commit_time c = some t
          ∧ (∀ f, bound_time fc committed_data = some f → f ≤ t)
          ∧ (∀ u, bound_time tc committed_data = some u → t ≤ u))
      ∧ ∀ c, c.sessions = [] → c ∉ range_filter fc tc committed_data)
    ∧ (bound_time fc committed_data = none → bound_time tc committed_data = none →
        range_filter fc tc committed_data = committed_data)
    ∧ (fc = none → bound_time fc committed_data = none)
    ∧ (∀ a, (∀ c ∈ committed_data, ¬c.hash = a) →
        bound_time (some a) committed_data = none) := by
  refine ⟨?_, ?_, ?_, ?_⟩
  · intro happ
    have hif : (range_filter fc tc committed_data)
        = committed_data.filter (fun c =>
            match commit_time c with
            | some t => in_range (bound_time fc committed_data)
                (bound_time tc committed_data) t
            | none => false) := by
      rw [range_filter]
      rw [if_pos]
      rcases happ with h | h <;> simp [h]
    constructor
    · intro c
      rw [hif, List.mem_filter]
      constructor
      · rintro ⟨hmem, hpred⟩
        refine ⟨hmem, ?_⟩
        rcases hct : commit_time c with _ | t
        · rw [hct] at hpred; cases hpred
        · rw [hct] at hpred
          refine ⟨t, rfl, ?_, ?_⟩
          · intro f hf
            rw [hf] at hpred
            rcases htt : bound_time tc committed_data with _ | u <;> rw [htt] at hpred
            · exact of_decide_eq_true hpred
            · exact of_decide_eq_true (Bool.and_elim_left hpred)
          · intro u hu
            rw [hu] at hpred
            rcases hft : bound_time fc committed_data with _ | f <;> rw [hft] at hpred
            · exact of_decide_eq_true hpred
            · exact of_decide_eq_true (Bool.and_elim_right hpred)
      · rintro ⟨hmem, t, hct, hfrom, hto⟩
        refine ⟨hmem, ?_⟩
        rw [hct]
        rcases hft : bound_time fc committed_data with _ | f <;>
          rcases htt : bound_time tc committed_data with _ | u
        · rw [hft] at happ; rw [htt] at happ
          rcases happ with h | h <;> cases h
        · exact decide_eq_true (hto u htt)
        · exact decide_eq_true (hfrom f hft)
        · show (decide (f ≤ t) && decide (t ≤ u)) = true
          rw [decide_eq_true (hfrom f hft), decide_eq_true (hto u htt)]
          rfl
    · intro c hc hmemf
      rw [hif, List.mem_filter] at hmemf
      have := hmemf.2
      rw [commit_time, hc] at this
      cases this
  · intro hft htt
    rw [range_filter, if_neg]
    rw [hft, htt]
    simp
  · intro h; rw [h, bound_time]
  · intro a hnone
    rw [bound_time]
    rcases hea : a == "" with _ | _
    · have hfind : committed_data.find? (fun c => c.hash == a) = none := by
        rw [List.find?_eq_none]
        intro x hx
        simp only [beq_iff_eq]
        exact hnone x hx
      simp only [hfind, Option.none_bind, ite_self]
    · rw [if_pos (by simpa using hea)]

/-- Concrete instance of C7 on a two-record history filtered from the first
record's hash. -/
theorem range_filter_spec_witness :
    (⟨[⟨100, some 160⟩], "m2", "bbbb"⟩ ∈
        range_filter (some "aaaa") none
          [⟨[⟨10, some 60⟩], "m1", "aaaa"⟩, ⟨[⟨100, some 160⟩], "m2", "bbbb"⟩]
      ↔ (⟨[⟨100, some 160⟩], "m2", "bbbb"⟩ : Commit) ∈
          [⟨[⟨10, some 60⟩], "m1", "aaaa"⟩, ⟨[⟨100, some 160⟩], "m2", "bbbb"⟩]
        ∧ ∃ t, commit_time ⟨[⟨100, some 160⟩], "m2", "bbbb"⟩ = some t
          ∧ (∀ f, bound_time (some "aaaa")
                [⟨[⟨10, some 60⟩], "m1", "aaaa"⟩, ⟨[⟨100, some 160⟩], "m2", "bbbb"⟩]
                  = some f → f ≤ t)
          ∧ (∀ u, bound_time none
                [⟨[⟨10, some 60⟩], "m1", "aaaa"⟩, ⟨[⟨100, some 160⟩], "m2", "bbbb"⟩]
                  = some u → t ≤ u))
    ∧ bound_time (some "cccc")
        [⟨[⟨10, some 60⟩], "m1", "aaaa"⟩, ⟨[⟨100, some 160⟩], "m2", "bbbb"⟩] = none := by
  constructor
  · exact ((range_filter_spec (some "aaaa") none
      [⟨[⟨10, some 60⟩], "m1", "aaaa"⟩, ⟨[⟨100, some 160⟩], "m2", "bbbb"⟩]).1
        (Or.inl (by decide))).1 ⟨[⟨100, some 160⟩], "m2", "bbbb"⟩
  · exact (range_filter_spec none none
      [⟨[⟨10, some 60⟩], "m1", "aaaa"⟩, ⟨[⟨100, some 160⟩], "m2", "bbbb"⟩]).2.2.2
        "cccc" (by decide)

/-! ## C6: total time -/


/-- The session fold of `show_total_time` on closed sessions computes the
plain elapsed sum. -/
theorem sessions_total_closed (now : Nat) :
    ∀ (l : List Session) (a : Int), (∀ s ∈ l, (s.«end»).isSome = true) →
      l.foldl (fun acc s => do pure ((← acc) + (← session_dur s))) (some a)
        = some (a + (l.map (uncommitted_dur now)).sum) := by
  intro l
  induction l with
  | nil => intro a _; simp
  | cons s l ih =>
    intro a hcl
    rcases he : s.«end» with _ | e
    · have := hcl s (List.mem_cons_self s l)
      rw [he] at this; cases this
    · have hdur : session_dur s = some ((e : Int) - (s.start : Int)) := by
        rw [session_dur, he]
      have hdur' : uncommitted_dur now s = (e : Int) - (s.start : Int) := by
        rw [uncommitted_dur, he]; rfl
      rw [List.foldl_cons]
      have hstep : (do pure ((← some a) + (← session_dur s)) : Option Int)
          = some (a + ((e : Int) - (s.start : Int))) := by
        rw [hdur]; rfl
      rw [hstep, ih (a + ((e : Int) - (s.start : Int)))
        (fun x hx => hcl x (List.mem_cons_of_mem s hx))]
      rw [List.map_cons, List.sum_cons, hdur']
      congr 1
      ring

/-- The committed fold of `show_total_time`, when no committed record occurs
in the deleted list and all committed sessions are closed. -/
theorem committed_total_closed (now : Nat) (deleted_data : List Commit) :
    ∀ (lc : List Commit) (a : Int),
      (∀ c ∈ lc, c ∉ deleted_data) →
      (∀ c ∈ lc, ∀ s ∈ c.sessions, (s.«end»).isSome = true) →
      lc.foldl
        (fun acc c =>
          if c ∈ deleted_data then acc
          else do pure ((← acc) + (← sessions_total c.sessions)))
        (some a)
        = some (a + (lc.map (fun c => (c.sessions.map (uncommitted_dur now)).sum)).sum) := by
  intro lc
  induction lc with
  | nil => intro a _ _; simp
  | cons c lc ih =>
    intro a hdis hcl
    rw [List.foldl_cons, if_neg (hdis c (List.mem_cons_self c lc))]
    have hst : sessions_total c.sessions
        = some ((c.sessions.map (uncommitted_dur now)).sum) := by
      rw [sessions_total]
      have := sessions_total_closed now c.sessions 0 (hcl c (List.mem_cons_self c lc))
      rw [this, zero_add]
    have hstep : (do pure ((← some a) + (← sessions_total c.sessions)) : Option Int)
        = some (a + (c.sessions.map (uncommitted_dur now)).sum) := by
      rw [hst]; rfl
    rw [hstep, ih _ (fun x hx => hdis x (List.mem_cons_of_mem c hx))
      (fun x hx => hcl x (List.mem_cons_of_mem c hx))]
    rw [List.map_cons, List.sum_cons]
    congr 1
    ring

/-- The ledger fold of `show_total_time` computes the elapsed sum. -/
theorem uncommitted_total_eq_sum (now : Nat) :
    ∀ (l : List Session) (a : Int),
      l.foldl (fun acc s => acc + uncommitted_dur now s) a
        = a + (l.map (uncommitted_dur now)).sum := by
  intro l
  induction l with
  | nil => intro a; simp
  | cons s l ih =>
    intro a
    rw [List.foldl_cons, ih, List.map_cons, List.sum_cons]
    ring

/-- C6.  On a state whose committed store is disjoint from the deleted store
and holds only closed sessions, and whose ledger durations are nonnegative,
the printed total equals the sum of all committed elapsed time plus all
ledger elapsed time (open ledger session ending at `now`); the query mutates
no state (it is a pure function of the loaded state). -/
theorem show_total_time_spec (now : Nat) (st : ProjectState)
    (hdisj : ∀ c ∈ st.committed, c ∉ st.deleted)
    (hclosed : ∀ c ∈ st.committed, ∀ s ∈ c.sessions, (s.«end»).isSome = true)
    (hnonneg : ∀ s ∈ st.uncommitted, 0 ≤ uncommitted_dur now s) :
    show_total_time now st = some (spec_total_time now st) := by
  have hc : committed_total st.committed st.deleted
      = some ((st.committed.map (fun c => (c.sessions.map (uncommitted_dur now)).sum)).sum) := by
    rw [committed_total]
    have := committed_total_closed now st.deleted st.committed 0 hdisj hclosed
    rw [this, zero_add]
  have hu : uncommitted_total now st.uncommitted
      = (st.uncommitted.map (uncommitted_dur now)).sum := by
    rw [uncommitted_total]
    have := uncommitted_total_eq_sum now st.uncommitted 0
    rw [this, zero_add]
  rw [show_total_time]
  rw [hc]
  simp only [Option.bind_eq_bind, Option.some_bind]
  by_cases hpos : 0 < uncommitted_total now st.uncommitted
  · rw [if_pos hpos, hu, spec_total_time]
    rfl
  · rw [if_neg hpos]
    have hzero : (st.uncommitted.map (uncommitted_dur now)).sum = 0 := by
      have hge : 0 ≤ (st.uncommitted.map (uncommitted_dur now)).sum :=
        List.sum_nonneg (by
          intro x hx
          rcases List.mem_map.mp hx with ⟨s, hs, rfl⟩
          exact hnonneg s hs)
      rw [hu] at hpos
      omega
    rw [spec_total_time, hzero, add_zero]
    rfl

/-- Concrete instance of C6: a committed record of 50 units, a soft-deleted
record that contributes nothing, and an open ledger session of 60 units at
query time 160. -/
theorem show_total_time_spec_witness :
    show_total_time 160
        ⟨[⟨[⟨10, some 60⟩], "m1", "aaaa"⟩], [⟨100, none⟩], [⟨[⟨0, some 7⟩], "m2", "bbbb"⟩]⟩
      = some (spec_total_time 160
        ⟨[⟨[⟨10, some 60⟩], "m1", "aaaa"⟩], [⟨100, none⟩], [⟨[⟨0, some 7⟩], "m2", "bbbb"⟩]⟩) := by
  exact show_total_time_spec 160
    ⟨[⟨[⟨10, some 60⟩], "m1", "aaaa"⟩], [⟨100, none⟩], [⟨[⟨0, some 7⟩], "m2", "bbbb"⟩]⟩
    (by decide) (by decide) (by decide)

/-! ## Resolution analysis, shared by the remove/purge/edit claims -/

/-- A map equal to a singleton comes from a singleton. -/
theorem map_eq_singleton {α β : Type} {f : α → β} {l : List α} {x : β}
    (h : l.map f = [x]) : ∃ e, l = [e] ∧ f e = x := by
  rcases l with _ | ⟨a, _ | ⟨b, t⟩⟩
  · cases h
  · rw [List.map_singleton] at h
    injection h with h1 _
    exact ⟨a, rfl, h1⟩
  · simp at h

/-- Relation `startswith` is transitive. -/
theorem startswith_trans {p q r : String} (h1 : startswith p q = true)
    (h2 : startswith q r = true) : startswith p r = true := by
  rw [startswith, List.isPrefixOf_iff_prefix] at h1 h2 ⊢
  exact h1.trans h2

/-- A successful resolution pins down a unique record matching the text,
across the concatenation of the two stores. -/
theorem resolve_ok_filter {p : String} {cd dd : List Commit} {full : String}
    (h : resolve_commit_hash p cd dd = .ok full) :
    ∃ e, (cd ++ dd).filter (fun c => startswith p c.hash) = [e] ∧ e.hash = full := by
  rw [resolve_commit_hash] at h
  rcases hm : hash_matches p cd dd with _ | ⟨m, _ | ⟨m', t⟩⟩
  · rw [hm] at h; cases h
  · rw [hm] at h
    injection h with h1
    rw [hash_matches] at hm
    obtain ⟨e, he, hfe⟩ := map_eq_singleton hm
    exact ⟨e, he, h1 ▸ hfe⟩
  · rw [hm] at h; cases h

/-- The unique match of a successful resolution absorbs every record of
either store whose hash extends the text. -/
theorem filter_single_unique {pr : Commit → Bool} {l : List Commit} {e : Commit}
    (hfil : l.filter pr = [e]) :
    e ∈ l ∧ pr e = true ∧ ∀ a ∈ l, pr a = true → a = e := by
  have hmem := List.mem_filter.mp (hfil ▸ List.mem_singleton_self e)
  refine ⟨hmem.1, hmem.2, ?_⟩
  intro a ha hpa
  have : a ∈ l.filter pr := List.mem_filter.mpr ⟨ha, hpa⟩
  rw [hfil] at this
  exact List.mem_singleton.mp this

/-- Re-resolving the full hash of a uniquely matched record still resolves,
to the same hash. -/
theorem resolve_full_ok {p : String} {cd dd : List Commit} {e : Commit}
    (hfil : (cd ++ dd).filter (fun c => startswith p c.hash) = [e]) :
    resolve_commit_hash e.hash cd dd = .ok e.hash := by
  obtain ⟨_, hpe, _⟩ := filter_single_unique hfil
  have himp : ∀ a : Commit, startswith e.hash a.hash = true →
      startswith p a.hash = true := fun a ha => startswith_trans hpe ha
  have hee : startswith e.hash e.hash = true := by
    rw [startswith]
    exact List.isPrefixOf_iff_prefix.mpr (List.prefix_refl _)
  have hfull : (cd ++ dd).filter (fun c => startswith e.hash c.hash) = [e] :=
    filter_eq_single_of_imp himp hfil hee
  have hm : hash_matches e.hash cd dd = [e.hash] := by
    rw [hash_matches, hfull, List.map_singleton]
  rw [resolve_commit_hash, hm]

/-! ## C3: remove (move, cascade to purge, not found) -/

/-- C3.  For a text that resolves over the union of the stores: a hash held
in the committed store is moved from the committed to the soft-deleted
store; a hash held only in the soft-deleted store turns the remove into the
purge of that hash (which, when confirmed, erases it from the soft-deleted
store); a text that resolves to nothing makes remove fail with the
resolution error, mutating nothing. -/
theorem remove_commit_spec (p : String) (confirm : Bool) (st : ProjectState) :
    (∀ full, resolve_commit_hash p st.committed st.deleted = .ok full →
      (∀ r, st.committed.find? (fun c => c.hash == full) = some r →
        remove_commit p confirm st
          = ({ st with committed := st.committed.erase r, deleted := st.deleted ++ [r] },
              none)
        ∧ r ∈ st.committed)
      ∧ (st.committed.find? (fun c => c.hash == full) = none →
        remove_commit p confirm st = purge_commit full confirm st
        ∧ ∃ r, r ∈ st.deleted ∧ st.deleted.find? (fun c => c.hash == full) = some r
          ∧ purge_commit full confirm st
              = (if confirm then { st with deleted := st.deleted.erase r } else st, none)))
    ∧ (∀ e, resolve_commit_hash p st.committed st.deleted = .error e →
        remove_commit p confirm st = (st, some e)) := by
  constructor
  · intro full hres
    constructor
    · intro r hfind
      constructor
      · unfold remove_commit; rw [hres]; dsimp only; rw [hfind]
      · exact List.mem_of_find?_eq_some hfind
    · intro hfindc
      obtain ⟨e, hfil, hehash⟩ := resolve_ok_filter hres
      obtain ⟨hemem, hpe, huniq⟩ := filter_single_unique hfil
      have hnotc : ∀ c ∈ st.committed, ¬(c.hash == full) = true := by
        rw [← List.find?_eq_none]
        exact hfindc
      have hedel : e ∈ st.deleted := by
        rcases List.mem_append.mp hemem with hc | hd
        · exact absurd (by rw [hehash]; exact beq_self_eq_true full) (hnotc e hc)
        · exact hd
      have hfindd : st.deleted.find? (fun c => c.hash == full) = some e := by
        rcases hfd : st.deleted.find? (fun c => c.hash == full) with _ | x
        · rw [List.find?_eq_none] at hfd
          exact absurd (by rw [hehash]; exact beq_self_eq_true full) (hfd e hedel)
        · have hx := List.find?_some hfd
          have hxmem := List.mem_of_find?_eq_some hfd
          have hxhash : x.hash = full := by simpa using hx
          have hxp : startswith p x.hash = true := by
            rw [hxhash, ← hehash]
            exact hpe
          rw [hfd, huniq x (List.mem_append.mpr (Or.inr hxmem)) hxp]
      have hresfull : resolve_commit_hash full st.committed st.deleted = .ok full := by
        rw [← hehash]
        exact resolve_full_ok hfil
      have hpurge : purge_commit full confirm st
          = (if confirm then { st with deleted := st.deleted.erase e } else st, none) := by
        unfold purge_commit; rw [hresfull]; dsimp only; rw [hfindc]; dsimp only
        rw [hfindd]; dsimp only
        rcases confirm with _ | _ <;> rfl
      refine ⟨?_, e, hedel, hfindd, hpurge⟩
      unfold remove_commit; rw [hres]; dsimp only; rw [hfindc]; dsimp only
      rw [hfindd]; rfl
  · intro e hres
    unfold remove_commit; rw [hres]

/-- Concrete instance of C3: removing a committed hash moves the record,
removing it again cascades into a confirmed purge, and an unknown text
fails with the resolution error. -/
theorem remove_commit_spec_witness :
    (remove_commit "aa" true ⟨[⟨[⟨5, some 6⟩], "m1", "aaaa"⟩], [], [⟨[⟨7, some 8⟩], "m2", "bbbb"⟩]⟩
        = (⟨[], [], [⟨[⟨7, some 8⟩], "m2", "bbbb"⟩, ⟨[⟨5, some 6⟩], "m1", "aaaa"⟩]⟩, none)
      ∧ (⟨[⟨5, some 6⟩], "m1", "aaaa"⟩ : Commit) ∈ [(⟨[⟨5, some 6⟩], "m1", "aaaa"⟩ : Commit)])
    ∧ remove_commit "bb" true ⟨[⟨[⟨5, some 6⟩], "m1", "aaaa"⟩], [], [⟨[⟨7, some 8⟩], "m2", "bbbb"⟩]⟩
        = purge_commit "bbbb" true ⟨[⟨[⟨5, some 6⟩], "m1", "aaaa"⟩], [], [⟨[⟨7, some 8⟩], "m2", "bbbb"⟩]⟩
    ∧ remove_commit "cc" true ⟨[⟨[⟨5, some 6⟩], "m1", "aaaa"⟩], [], [⟨[⟨7, some 8⟩], "m2", "bbbb"⟩]⟩
        = (⟨[⟨[⟨5, some 6⟩], "m1", "aaaa"⟩], [], [⟨[⟨7, some 8⟩], "m2", "bbbb"⟩]⟩,
            some (.commitNotFound "cc")) := by
  refine ⟨?_, ?_, ?_⟩
  · exact ((remove_commit_spec "aa" true _).1 "aaaa" (by decide)).1 ⟨[⟨5, some 6⟩], "m1", "aaaa"⟩
      (by decide)
  · exact (((remove_commit_spec "bb" true _).1 "bbbb" (by decide)).2 (by decide)).1
  · exact (remove_commit_spec "cc" true _).2 (.commitNotFound "cc") (by decide)

/-! ## C10: edit resolves over the committed store only -/

/-- C10.  For a record held only in the soft-deleted store, a text that
resolves over the union of the stores to some hash and matches that
record's hash makes `edit` fail with the not-found resolution error (its
resolution sees the committed store only), while `remove` and `purge` on
the same text resolve it and, confirmed, erase the record from the
soft-deleted store. -/
theorem edit_commit_deleted_only_spec (p m : String) (ns : List Session)
    (st : ProjectState) (R : Commit) (full : String)
    (hR : R ∈ st.deleted) (hRC : R ∉ st.committed)
    (hpre : startswith p R.hash = true)
    (hres : resolve_commit_hash p st.committed st.deleted = .ok full) :
    edit_commit p m ns st = (st, some (.commitNotFound p))
    ∧ remove_commit p true st = ({ st with deleted := st.deleted.erase R }, none)
    ∧ purge_commit p true st = ({ st with deleted := st.deleted.erase R }, none) := by
  obtain ⟨e, hfil, hehash⟩ := resolve_ok_filter hres
  obtain ⟨hemem, hpe, huniq⟩ := filter_single_unique hfil
  have heR : R = e := huniq R (List.mem_append.mpr (Or.inr hR)) hpre
  subst heR
  have hnotc : ∀ c ∈ st.committed, startswith p c.hash ≠ true := by
    intro c hc hpc
    have := huniq c (List.mem_append.mpr (Or.inl hc)) hpc
    subst this
    exact hRC hc
  have hfindc : st.committed.find? (fun c => c.hash == full) = none := by
    rw [List.find?_eq_none]
    intro x hx hxfull
    have hxhash : x.hash = full := by simpa using hxfull
    exact hnotc x hx (by rw [hxhash, ← hehash]; exact hpe)
  have hfindd : st.deleted.find? (fun c => c.hash == full) = some R := by
    rcases hfd : st.deleted.find? (fun c => c.hash == full) with _ | x
    · rw [List.find?_eq_none] at hfd
      exact absurd (by rw [hehash]; exact beq_self_eq_true full) (hfd R hR)
    · have hx := List.find?_some hfd
      have hxmem := List.mem_of_find?_eq_some hfd
      have hxhash : x.hash = full := by simpa using hx
      have hxp : startswith p x.hash = true := by rw [hxhash, ← hehash]; exact hpe
      rw [hfd, huniq x (List.mem_append.mpr (Or.inr hxmem)) hxp]
  refine ⟨?_, ?_, ?_⟩
  · have hfc : st.committed.filter (fun c => startswith p c.hash) = [] := by
      rw [List.filter_eq_nil_iff]; exact hnotc
    have hmatches : hash_matches p st.committed [] = [] := by
      rw [hash_matches, List.append_nil, hfc]
      rfl
    have hresc : resolve_commit_hash p st.committed [] = .error (.commitNotFound p) := by
      rw [resolve_commit_hash, hmatches]
    unfold edit_commit; rw [hresc]
  · have hresfull : resolve_commit_hash full st.committed st.deleted = .ok full := by
      rw [← hehash]
      exact resolve_full_ok hfil
    have hpurge : purge_commit full true st
        = ({ st with deleted := st.deleted.erase R }, none) := by
      unfold purge_commit; rw [hresfull]; dsimp only; rw [hfindc]; dsimp only
      rw [hfindd]
      rfl
    unfold remove_commit; rw [hres]; dsimp only; rw [hfindc]; dsimp only
    rw [hfindd, Option.isSome_some, if_pos rfl]
    exact hpurge
  · unfold purge_commit; rw [hres]; dsimp only; rw [hfindc]; dsimp only
    rw [hfindd]
    rfl

/-- Concrete instance of C10 on a one-record soft-deleted store. -/
theorem edit_commit_deleted_only_spec_witness :
    edit_commit "bb" "m" [⟨0, some 60⟩]
        ⟨[⟨[⟨5, some 6⟩], "m1", "aaaa"⟩], [], [⟨[⟨7, some 8⟩], "m2", "bbbb"⟩]⟩
      = (⟨[⟨[⟨5, some 6⟩], "m1", "aaaa"⟩], [], [⟨[⟨7, some 8⟩], "m2", "bbbb"⟩]⟩,
          some (.commitNotFound "bb"))
    ∧ remove_commit "bb" true
        ⟨[⟨[⟨5, some 6⟩], "m1", "aaaa"⟩], [], [⟨[⟨7, some 8⟩], "m2", "bbbb"⟩]⟩
      = (⟨[⟨[⟨5, some 6⟩], "m1", "aaaa"⟩], [], []⟩, none)
    ∧ purge_commit "bb" true
        ⟨[⟨[⟨5, some 6⟩], "m1", "aaaa"⟩], [], [⟨[⟨7, some 8⟩], "m2", "bbbb"⟩]⟩
      = (⟨[⟨[⟨5, some 6⟩], "m1", "aaaa"⟩], [], []⟩, none) := by
  exact edit_commit_deleted_only_spec "bb" "m" [⟨0, some 60⟩]
    ⟨[⟨[⟨5, some 6⟩], "m1", "aaaa"⟩], [], [⟨[⟨7, some 8⟩], "m2", "bbbb"⟩]⟩
    ⟨[⟨7, some 8⟩], "m2", "bbbb"⟩ "bbbb"
    (by decide) (by decide) (by decide) (by decide)

/-! ## C4: the commit hash is a pure function of the interval data -/

/-- Order `lexLt` is asymmetric. -/
theorem lexLt_asymm : ∀ (a b : List Char), lexLt a b = true → lexLt b a = false
  | [], [] => fun h => by cases h
  | [], _ :: _ => fun _ => rfl
  | _ :: _, [] => fun h => by cases h
  | c :: cs, d :: ds => by
    intro h
    rw [lexLt] at h ⊢
    by_cases h1 : c.toNat < d.toNat
    · rw [if_neg (by omega), if_pos h1]
    · by_cases h2 : d.toNat < c.toNat
      · rw [if_neg h1, if_pos h2] at h
        cases h
      · rw [if_neg h1, if_neg h2] at h
        rw [if_neg h2, if_neg h1]
        exact lexLt_asymm cs ds h

/-- Order `lexLt` is irreflexive. -/
theorem lexLt_irrefl (a : List Char) : lexLt a a = false := by
  rcases h : lexLt a a with _ | _
  · rfl
  · have := lexLt_asymm a a h
    rw [h] at this
    cases this

/-- Order `lexLt` is trichotomous. -/
theorem lexLt_trichotomy : ∀ (a b : List Char), lexLt a b = true ∨ a = b ∨ lexLt b a = true
  | [], [] => Or.inr (Or.inl rfl)
  | [], _ :: _ => Or.inl rfl
  | _ :: _, [] => Or.inr (Or.inr rfl)
  | c :: cs, d :: ds => by
    by_cases h1 : c.toNat < d.toNat
    · left; rw [lexLt, if_pos h1]
    · by_cases h2 : d.toNat < c.toNat
      · right; right; rw [lexLt, if_pos h2]
      · have hn : c.toNat = d.toNat := by omega
        have hcd : c = d := Char.ext (UInt32.ext hn)
        rcases lexLt_trichotomy cs ds with h | h | h
        · left; rw [lexLt, if_neg h1, if_neg h2]; exact h
        · right; left; rw [hcd, h]
        · right; right; rw [lexLt, if_neg h2, if_neg h1]; exact h

/-- Order `lexLt` is transitive. -/
theorem lexLt_trans : ∀ (a b c : List Char),
    lexLt a b = true → lexLt b c = true → lexLt a c = true
  | [], [], _ => fun h _ => by cases h
  | [], _ :: _, [] => fun _ h => by cases h
  | [], _ :: _, _ :: _ => fun _ _ => rfl
  | _ :: _, [], _ => fun h _ => by cases h
  | _ :: _, _ :: _, [] => fun _ h => by cases h
  | a :: as, b :: bs, c :: cs => by
    intro h1 h2
    rw [lexLt] at h1 h2 ⊢
    by_cases hab : a.toNat < b.toNat
    · by_cases hbc : b.toNat < c.toNat
      · rw [if_pos (by omega)]
      · by_cases hcb : c.toNat < b.toNat
        · rw [if_neg hbc, if_pos hcb] at h2
          cases h2
        · rw [if_pos (by omega)]
    · by_cases hba : b.toNat < a.toNat
      · rw [if_neg hab, if_pos hba] at h1
        cases h1
      · by_cases hbc : b.toNat < c.toNat
        · rw [if_pos (by omega)]
        · by_cases hcb : c.toNat < b.toNat
          · rw [if_neg hbc, if_pos hcb] at h2
            cases h2
          · rw [if_neg hab, if_neg hba] at h1
            rw [if_neg hbc, if_neg hcb] at h2
            rw [if_neg (by omega), if_neg (by omega)]
            exact lexLt_trans as bs cs h1 h2

/-- Not-less-than composes, by trichotomy. -/
theorem lexLt_not_trans {a b c : List Char} (hba : lexLt b a = false)
    (hcb : lexLt c b = false) : lexLt c a = false := by
  rcases h : lexLt c a with _ | _
  · rfl
  · rcases lexLt_trichotomy a b with hab | hab | hab
    · have := lexLt_trans c a b h hab
      rw [this] at hcb
      cases hcb
    · rw [hab] at h
      rw [h] at hcb
      cases hcb
    · rw [hab] at hba
      cases hba

instance : IsTotal (String × String) itemLe := by
  constructor
  intro a b
  rcases lexLt_trichotomy a.1.data b.1.data with h | h | h
  · left
    rw [itemLe, itemLeb, h, Bool.true_or]
  · have hk : a.1 = b.1 := String.ext h
    rcases lexLt_trichotomy a.2.data b.2.data with hv | hv | hv
    · left
      rw [itemLe, itemLeb, strLeb, lexLt_asymm _ _ hv]
      simp [hk]
    · left
      rw [itemLe, itemLeb, strLeb, hv, lexLt_irrefl]
      simp [hk]
    · right
      rw [itemLe, itemLeb, strLeb, lexLt_asymm _ _ hv]
      simp [hk]
  · right
    rw [itemLe, itemLeb, h, Bool.true_or]

instance : IsTrans (String × String) itemLe := by
  constructor
  intro a b c h1 h2
  rw [itemLe, itemLeb, Bool.or_eq_true] at h1 h2 ⊢
  rcases h1 with h1 | h1 <;> rcases h2 with h2 | h2
  · exact Or.inl (lexLt_trans _ _ _ h1 h2)
  · rw [Bool.and_eq_true, beq_iff_eq] at h2
    rw [← h2.1]
    exact Or.inl h1
  · rw [Bool.and_eq_true, beq_iff_eq] at h1
    rw [h1.1]
    exact Or.inl h2
  · rw [Bool.and_eq_true, beq_iff_eq] at h1 h2
    right
    rw [Bool.and_eq_true, beq_iff_eq]
    refine ⟨h1.1.trans h2.1, ?_⟩
    have hv1 := h1.2
    have hv2 := h2.2
    rw [strLeb, Bool.not_eq_true'] at hv1 hv2 ⊢
    exact lexLt_not_trans hv1 hv2

instance : IsAntisymm (String × String) itemLe := by
  constructor
  intro a b h1 h2
  rw [itemLe, itemLeb, Bool.or_eq_true] at h1 h2
  rcases h1 with h1 | h1 <;> rcases h2 with h2 | h2
  · have := lexLt_asymm _ _ h1
    rw [h2] at this
    cases this
  · rw [Bool.and_eq_true, beq_iff_eq] at h2
    rw [h2.1] at h1
    rw [lexLt_irrefl] at h1
    cases h1
  · rw [Bool.and_eq_true, beq_iff_eq] at h1
    rw [h1.1] at h2
    rw [lexLt_irrefl] at h2
    cases h2
  · rw [Bool.and_eq_true, beq_iff_eq] at h1 h2
    refine Prod.ext h1.1 ?_
    have hv1 := h1.2
    have hv2 := h2.2
    rw [strLeb, Bool.not_eq_true'] at hv1 hv2
    rcases lexLt_trichotomy a.2.data b.2.data with hv | hv | hv
    · rw [hv] at hv2
      cases hv2
    · exact String.ext hv
    · rw [hv] at hv1
      cases hv1

/-- The canonical dump of a dict depends only on its item multiset: any
reordering of the insertion order serializes identically. -/
theorem dumpDictSorted_perm {d1 d2 : PyDict} (h : d1.Perm d2) :
    dumpDictSorted d1 = dumpDictSorted d2 := by
  have hsort : List.insertionSort itemLe d1 = List.insertionSort itemLe d2 :=
    List.eq_of_perm_of_sorted
      (((List.perm_insertionSort itemLe d1).trans h).trans
        (List.perm_insertionSort itemLe d2).symm)
      (List.sorted_insertionSort itemLe d1) (List.sorted_insertionSort itemLe d2)
  rw [dumpDictSorted, dumpDictSorted, hsort]

/-- The commit hash is invariant under per-dict key/item reordering of its
input. -/
theorem generate_commit_hash_perm {l1 l2 : List PyDict}
    (h : List.Forall₂ List.Perm l1 l2) :
    generate_commit_hash l1 = generate_commit_hash l2 := by
  have hmap : l1.map dumpDictSorted = l2.map dumpDictSorted := by
    induction h with
    | nil => rfl
    | cons hd _ ih => rw [List.map_cons, List.map_cons, dumpDictSorted_perm hd, ih]
  rw [generate_commit_hash, generate_commit_hash, canonical_serialize, canonical_serialize,
    hmap]

/-- C4.  The commit hash is the digest of the canonical (key-sorted)
serialization of the sessions alone: it ignores the insertion order of dict
keys, never reads the message (commits over the same ledger with different
messages carry the same hash), and recomputing it during an edit depends
only on the new sessions, not the new message. -/
theorem generate_commit_hash_spec :
    (∀ ss : List Session,
      gen_hash ss = sha1_hexdigest (canonical_serialize (ss.map sessionToDict)))
    ∧ (∀ l1 l2 : List PyDict, List.Forall₂ List.Perm l1 l2 →
        generate_commit_hash l1 = generate_commit_hash l2)
    ∧ (∀ (m1 m2 : String) (st : ProjectState),
        (commit_session m1 st).1.committed.map (fun c => c.hash)
          = (commit_session m2 st).1.committed.map (fun c => c.hash))
    ∧ (∀ (p m1 m2 : String) (ns : List Session) (st : ProjectState),
        (edit_commit p m1 ns st).1.committed.map (fun c => c.hash)
          = (edit_commit p m2 ns st).1.committed.map (fun c => c.hash)) := by
  refine ⟨fun _ => rfl, fun _ _ h => generate_commit_hash_perm h, ?_, ?_⟩
  · intro m1 m2 st
    rcases hl : st.uncommitted.getLast? with _ | s
    · have h1 : commit_session m1 st = (st, some .nothingToCommit) := by
        unfold commit_session; rw [hl]
      have h2 : commit_session m2 st = (st, some .nothingToCommit) := by
        unfold commit_session; rw [hl]
      rw [h1, h2]
    · rcases he : s.«end» with _ | e
      · have h1 : commit_session m1 st = (st, some .nothingToCommit) := by
          unfold commit_session; rw [hl]; dsimp only; rw [if_pos he]
        have h2 : commit_session m2 st = (st, some .nothingToCommit) := by
          unfold commit_session; rw [hl]; dsimp only; rw [if_pos he]
        rw [h1, h2]
      · have hsome : ¬s.«end» = none := by rw [he]; exact fun h0 => by cases h0
        have h1 : (commit_session m1 st).1.committed
            = st.committed ++ [⟨st.uncommitted, m1, gen_hash st.uncommitted⟩] := by
          unfold commit_session; rw [hl]; dsimp only; rw [if_neg hsome]
        have h2 : (commit_session m2 st).1.committed
            = st.committed ++ [⟨st.uncommitted, m2, gen_hash st.uncommitted⟩] := by
          unfold commit_session; rw [hl]; dsimp only; rw [if_neg hsome]
        rw [h1, h2, List.map_append, List.map_append]
        rfl
  · intro p m1 m2 ns st
    rcases hres : resolve_commit_hash p st.committed [] with e | full
    · have h1 : edit_commit p m1 ns st = (st, some e) := by
        unfold edit_commit; rw [hres]
      have h2 : edit_commit p m2 ns st = (st, some e) := by
        unfold edit_commit; rw [hres]
      rw [h1, h2]
    · rcases hidx : st.committed.findIdx? (fun c => c.hash == full) with _ | i
      · have h1 : edit_commit p m1 ns st = (st, some (.commitMissing full)) := by
          unfold edit_commit; rw [hres]; dsimp only; rw [hidx]
        have h2 : edit_commit p m2 ns st = (st, some (.commitMissing full)) := by
          unfold edit_commit; rw [hres]; dsimp only; rw [hidx]
        rw [h1, h2]
      · rcases hemp : ns.isEmpty with _ | _
        · have h1 : (edit_commit p m1 ns st).1.committed
              = st.committed.set i ⟨ns, m1, gen_hash ns⟩ := by
            unfold edit_commit; rw [hres]; dsimp only; rw [hidx]; dsimp only
            rw [hemp]; rfl
          have h2 : (edit_commit p m2 ns st).1.committed
              = st.committed.set i ⟨ns, m2, gen_hash ns⟩ := by
            unfold edit_commit; rw [hres]; dsimp only; rw [hidx]; dsimp only
            rw [hemp]; rfl
          rw [h1, h2, List.map_set, List.map_set]
        · have h1 : edit_commit p m1 ns st
              = ({ st with committed := st.committed.eraseIdx i }, none) := by
            unfold edit_commit; rw [hres]; dsimp only; rw [hidx]; dsimp only
            rw [hemp]; rfl
          have h2 : edit_commit p m2 ns st
              = ({ st with committed := st.committed.eraseIdx i }, none) := by
            unfold edit_commit; rw [hres]; dsimp only; rw [hidx]; dsimp only
            rw [hemp]; rfl
          rw [h1, h2]

/-- Concrete instance of C4: the two insertion orders of one session dict
hash identically, and commits of the same ledger under different messages
append records with the same hash. -/
theorem generate_commit_hash_spec_witness :
    generate_commit_hash [[("start", "0"), ("end", "60")]]
        = generate_commit_hash [[("end", "60"), ("start", "0")]]
    ∧ (commit_session "first" ⟨[], [⟨0, some 60⟩], []⟩).1.committed.map (fun c => c.hash)
        = (commit_session "second" ⟨[], [⟨0, some 60⟩], []⟩).1.committed.map (fun c => c.hash) := by
  constructor
  · exact generate_commit_hash_spec.2.1 _ _
      (List.Forall₂.cons (List.Perm.swap ("end", "60") ("start", "0") []) List.Forall₂.nil)
  · exact generate_commit_hash_spec.2.2.1 "first" "second" ⟨[], [⟨0, some 60⟩], []⟩

/-! ## C9: store disjointness

The claim as stated is violated by `edit`, which can rewrite a committed
record into a value equal to a record already in the soft-deleted store
(see the counterexample below).  The invariant does hold for all sequences
of the other commands under non-repeating clock readings; the proof
carries a strengthened temporal invariant. -/


theorem StateInv.mono {st : ProjectState} {t t' : Nat} (h : StateInv st t)
    (hle : t ≤ t') : StateInv st t' := by
  obtain ⟨hd, hn, hu, hr, hi⟩ := h
  exact ⟨hd, hn, fun u hu' => lt_of_lt_of_le (hu u hu') hle,
    fun c hc s hs => lt_of_lt_of_le (hr c hc s hs) hle, hi⟩

/-- Command `start` preserves the invariant, bumping the bound past its clock. -/
theorem stateInv_start {st : ProjectState} {t now : Nat} (h : StateInv st t)
    (hle : t ≤ now) : StateInv (start_session now st).1 (now + 1) := by
  obtain ⟨hd, hn, hu, hr, hi⟩ := h
  have happ : StateInv
      ({ st with uncommitted := st.uncommitted ++ [⟨now, none⟩] }) (now + 1) := by
    refine ⟨hd, hn, ?_, ?_, ?_⟩
    · intro u hu'
      rcases List.mem_append.mp hu' with h1 | h1
      · have := hu u h1; omega
      · rcases List.mem_singleton.mp h1 with rfl
        exact Nat.lt_succ_self now
    · intro c hc s hs
      have := hr c hc s hs; omega
    · intro c hc s hs u hu'
      rcases List.mem_append.mp hu' with h1 | h1
      · exact hi c hc s hs u h1
      · rcases List.mem_singleton.mp h1 with rfl
        have := hr c hc s hs
        exact lt_of_lt_of_le this hle
  rcases hl : st.uncommitted.getLast? with _ | s
  · have hs : (start_session now st).1
        = { st with uncommitted := st.uncommitted ++ [⟨now, none⟩] } := by
      unfold start_session; rw [hl]
    rw [hs]; exact happ
  · rcases he : s.«end» with _ | e
    · have hs : (start_session now st).1 = st := by
        unfold start_session; rw [hl]; dsimp only; rw [if_pos he]
      rw [hs]
      exact StateInv.mono ⟨hd, hn, hu, hr, hi⟩ (by omega)
    · have hsome : ¬s.«end» = none := by rw [he]; exact fun h0 => by cases h0
      have hs : (start_session now st).1
          = { st with uncommitted := st.uncommitted ++ [⟨now, none⟩] } := by
        unfold start_session; rw [hl]; dsimp only; rw [if_neg hsome]
      rw [hs]; exact happ

/-- Command `stop` preserves the invariant. -/
theorem stateInv_stop {st : ProjectState} {t now : Nat} (h : StateInv st t)
    (hle : t ≤ now) : StateInv (stop_session now st).1 (now + 1) := by
  obtain ⟨hd, hn, hu, hr, hi⟩ := h
  rcases hl : st.uncommitted.getLast? with _ | s
  · have hs : (stop_session now st).1 = st := by
      unfold stop_session; rw [hl]
    rw [hs]
    exact StateInv.mono ⟨hd, hn, hu, hr, hi⟩ (by omega)
  · have hsmem : s ∈ st.uncommitted := List.mem_of_mem_getLast? (Option.mem_def.mpr hl)
    rcases he : s.«end» with _ | e
    · have hnotsome : (s.«end»).isSome ≠ true := by rw [he]; exact fun h0 => by cases h0
      have hs : (stop_session now st).1
          = { st with
              uncommitted := st.uncommitted.dropLast ++ [{ s with «end» := some now }] } := by
        unfold stop_session; rw [hl]; dsimp only; rw [if_neg hnotsome]
      rw [hs]
      have hmem' : ∀ u ∈ st.uncommitted.dropLast ++ [{ s with «end» := some now }],
          ∃ v ∈ st.uncommitted, u.start = v.start := by
        intro u hu'
        rcases List.mem_append.mp hu' with h1 | h1
        · exact ⟨u, List.Sublist.mem h1 (List.dropLast_sublist _), rfl⟩
        · rcases List.mem_singleton.mp h1 with rfl
          exact ⟨s, hsmem, rfl⟩
      refine ⟨hd, hn, ?_, ?_, ?_⟩
      · intro u hu'
        obtain ⟨v, hv, hveq⟩ := hmem' u hu'
        rw [hveq]
        have := hu v hv; omega
      · intro c hc x hx
        have := hr c hc x hx; omega
      · intro c hc x hx u hu'
        obtain ⟨v, hv, hveq⟩ := hmem' u hu'
        rw [hveq]
        exact hi c hc x hx v hv
    · have hsome : (s.«end»).isSome = true := by rw [he]; rfl
      have hs : (stop_session now st).1 = st := by
        unfold stop_session; rw [hl]; dsimp only; rw [if_pos hsome]
      rw [hs]
      exact StateInv.mono ⟨hd, hn, hu, hr, hi⟩ (by omega)

/-- Command `commit` preserves the invariant: the freshly built record cannot equal
any stored record, because its session starts are strictly later. -/
theorem stateInv_commit {st : ProjectState} {t now : Nat} (m : String)
    (h : StateInv st t) (hle : t ≤ now) : StateInv (commit_session m st).1 (now + 1) := by
  obtain ⟨hd, hn, hu, hr, hi⟩ := h
  rcases hl : st.uncommitted.getLast? with _ | s
  · have hs : (commit_session m st).1 = st := by
      unfold commit_session; rw [hl]
    rw [hs]
    exact StateInv.mono ⟨hd, hn, hu, hr, hi⟩ (by omega)
  · rcases he : s.«end» with _ | e
    · have hs : (commit_session m st).1 = st := by
        unfold commit_session; rw [hl]; dsimp only; rw [if_pos he]
      rw [hs]
      exact StateInv.mono ⟨hd, hn, hu, hr, hi⟩ (by omega)
    · have hsome : ¬s.«end» = none := by rw [he]; exact fun h0 => by cases h0
      have hs : (commit_session m st).1
          = { st with
              committed := st.committed ++ [⟨st.uncommitted, m, gen_hash st.uncommitted⟩],
              uncommitted := [] } := by
        unfold commit_session; rw [hl]; dsimp only; rw [if_neg hsome]
      rw [hs]
      have hne : st.uncommitted ≠ [] := fun h0 => by rw [h0] at hl; cases hl
      obtain ⟨u0, hu0⟩ := List.exists_mem_of_ne_nil st.uncommitted hne
      set R : Commit := ⟨st.uncommitted, m, gen_hash st.uncommitted⟩ with hR
      have hRnot : R ∉ st.committed ++ st.deleted := by
        intro hRmem
        have := hi R hRmem u0 hu0 u0 hu0
        exact absurd this (lt_irrefl _)
      have hperm : (st.committed ++ [R]) ++ st.deleted
          |>.Perm (R :: (st.committed ++ st.deleted)) := by
        have h1 : st.committed ++ [R] |>.Perm (R :: st.committed) :=
          List.perm_append_singleton R st.committed
        exact h1.append_right st.deleted
      have hmemc : ∀ c, c ∈ (st.committed ++ [R]) ++ st.deleted →
          c = R ∨ c ∈ st.committed ++ st.deleted := by
        intro c hc
        rcases List.mem_cons.mp ((hperm.mem_iff).mp hc) with h1 | h1
        · exact Or.inl h1
        · exact Or.inr h1
      refine ⟨?_, ?_, ?_, ?_, ?_⟩
      · intro c hc
        rcases List.mem_append.mp hc with h1 | h1
        · exact hd c h1
        · rcases List.mem_singleton.mp h1 with rfl
          intro hcontra
          exact hRnot (List.mem_append.mpr (Or.inr hcontra))
      · exact (hperm.symm).nodup (List.nodup_cons.mpr ⟨hRnot, hn⟩)
      · intro u hu'
        exact absurd hu' (List.not_mem_nil u)
      · intro c hc x hx
        rcases hmemc c hc with rfl | h1
        · have := hu x hx; omega
        · have := hr c h1 x hx; omega
      · intro c hc x hx u hu'
        exact absurd hu' (List.not_mem_nil u)

/-- Erasing a record from the committed store preserves the invariant. -/
theorem stateInv_erase_committed {st : ProjectState} {t : Nat} (r : Commit)
    (h : StateInv st t) : StateInv { st with committed := st.committed.erase r } t := by
  obtain ⟨hd, hn, hu, hr, hi⟩ := h
  have hsub : (st.committed.erase r ++ st.deleted).Sublist (st.committed ++ st.deleted) :=
    (List.erase_sublist r st.committed).append_right st.deleted
  exact ⟨fun c hc => hd c (List.Sublist.mem hc (List.erase_sublist r st.committed)),
    List.Nodup.sublist hsub hn,
    hu,
    fun c hc s hs => hr c (List.Sublist.mem hc hsub) s hs,
    fun c hc s hs u hu' => hi c (List.Sublist.mem hc hsub) s hs u hu'⟩

/-- Erasing a record from the soft-deleted store preserves the invariant. -/
theorem stateInv_erase_deleted {st : ProjectState} {t : Nat} (r : Commit)
    (h : StateInv st t) : StateInv { st with deleted := st.deleted.erase r } t := by
  obtain ⟨hd, hn, hu, hr, hi⟩ := h
  have hsub : (st.committed ++ st.deleted.erase r).Sublist (st.committed ++ st.deleted) :=
    List.Sublist.append (List.Sublist.refl st.committed) (List.erase_sublist r st.deleted)
  exact ⟨fun c hc hdel => hd c hc (List.Sublist.mem hdel (List.erase_sublist r st.deleted)),
    List.Nodup.sublist hsub hn,
    hu,
    fun c hc s hs => hr c (List.Sublist.mem hc hsub) s hs,
    fun c hc s hs u hu' => hi c (List.Sublist.mem hc hsub) s hs u hu'⟩

/-- Command `purge` preserves the invariant: every outcome is the old state or the
old state minus one record. -/
theorem stateInv_purge {st : ProjectState} {t : Nat} (p : String) (confirm : Bool)
    (h : StateInv st t) : StateInv (purge_commit p confirm st).1 t := by
  rcases hres : resolve_commit_hash p st.committed st.deleted with e | full
  · have hp : (purge_commit p confirm st).1 = st := by
      unfold purge_commit; rw [hres]
    rw [hp]; exact h
  · rcases hfc : st.committed.find? (fun c => c.hash == full) with _ | r
    · rcases hfd : st.deleted.find? (fun c => c.hash == full) with _ | r
      · have hp : (purge_commit p confirm st).1 = st := by
          unfold purge_commit; rw [hres]; dsimp only; rw [hfc]; dsimp only; rw [hfd]
        rw [hp]; exact h
      · rcases confirm with _ | _
        · have hp : (purge_commit p false st).1 = st := by
            unfold purge_commit; rw [hres]; dsimp only; rw [hfc]; dsimp only; rw [hfd]
            rfl
          rw [hp]; exact h
        · have hp : (purge_commit p true st).1
              = { st with deleted := st.deleted.erase r } := by
            unfold purge_commit; rw [hres]; dsimp only; rw [hfc]; dsimp only; rw [hfd]
            rfl
          rw [hp]; exact stateInv_erase_deleted r h
    · rcases confirm with _ | _
      · have hp : (purge_commit p false st).1 = st := by
          unfold purge_commit; rw [hres]; dsimp only; rw [hfc]
          rfl
        rw [hp]; exact h
      · have hp : (purge_commit p true st).1
            = { st with committed := st.committed.erase r } := by
          unfold purge_commit; rw [hres]; dsimp only; rw [hfc]
          rfl
        rw [hp]; exact stateInv_erase_committed r h

/-- Command `remove` preserves the invariant. -/
theorem stateInv_remove {st : ProjectState} {t : Nat} (p : String) (confirm : Bool)
    (h : StateInv st t) : StateInv (remove_commit p confirm st).1 t := by
  obtain ⟨hd, hn, hu, hr, hi⟩ := h
  rcases hres : resolve_commit_hash p st.committed st.deleted with e | full
  · have hp : (remove_commit p confirm st).1 = st := by
      unfold remove_commit; rw [hres]
    rw [hp]; exact ⟨hd, hn, hu, hr, hi⟩
  · rcases hfc : st.committed.find? (fun c => c.hash == full) with _ | r
    · rcases hfd : (st.deleted.find? (fun c => c.hash == full)).isSome with _ | _
      · have hp : (remove_commit p confirm st).1 = st := by
          unfold remove_commit; rw [hres]; dsimp only; rw [hfc]; dsimp only; rw [hfd]
          rfl
        rw [hp]; exact ⟨hd, hn, hu, hr, hi⟩
      · have hp : (remove_commit p confirm st).1 = (purge_commit full confirm st).1 := by
          unfold remove_commit; rw [hres]; dsimp only; rw [hfc]; dsimp only; rw [hfd]
          rfl
        rw [hp]
        exact stateInv_purge full confirm ⟨hd, hn, hu, hr, hi⟩
    · have hp : (remove_commit p confirm st).1
          = { st with committed := st.committed.erase r, deleted := st.deleted ++ [r] } := by
        unfold remove_commit; rw [hres]; dsimp only; rw [hfc]
      rw [hp]
      have hrmem : r ∈ st.committed := List.mem_of_find?_eq_some hfc
      have hcnodup : st.committed.Nodup := List.Nodup.of_append_left hn
      have hperm : (st.committed.erase r ++ (st.deleted ++ [r])).Perm
          (st.committed ++ st.deleted) := by
        have h1 : (st.deleted ++ [r]).Perm (r :: st.deleted) :=
          List.perm_append_singleton r st.deleted
        have h2 : (st.committed.erase r ++ (st.deleted ++ [r])).Perm
            (st.committed.erase r ++ (r :: st.deleted)) :=
          List.Perm.append_left (st.committed.erase r) h1
        have h3 : (st.committed.erase r ++ (r :: st.deleted)).Perm
            (r :: (st.committed.erase r ++ st.deleted)) := List.perm_middle
        have h4 : (st.committed).Perm (r :: st.committed.erase r) :=
          List.perm_cons_erase hrmem
        have h5 : (st.committed ++ st.deleted).Perm
            ((r :: st.committed.erase r) ++ st.deleted) :=
          h4.append_right st.deleted
        exact (h2.trans h3).trans h5.symm
      refine ⟨?_, ?_, hu, ?_, ?_⟩
      · intro c hc
        have hcmem : c ≠ r ∧ c ∈ st.committed := (hcnodup.mem_erase_iff).mp hc
        intro hcontra
        rcases List.mem_append.mp hcontra with h1 | h1
        · exact hd c hcmem.2 h1
        · exact hcmem.1 (List.mem_singleton.mp h1)
      · exact hperm.symm.nodup hn
      · intro c hc s hs
        exact hr c ((hperm.mem_iff).mp hc) s hs
      · intro c hc s hs u hu'
        exact hi c ((hperm.mem_iff).mp hc) s hs u hu'

/-- The strengthened invariant holds in every reachable state. -/
theorem reached_stateInv {st : ProjectState} {t : Nat} (h : Reached st t) :
    StateInv st t := by
  induction h with
  | init =>
    refine ⟨?_, ?_, ?_, ?_, ?_⟩
    · intro c hc; exact absurd hc (List.not_mem_nil c)
    · exact List.nodup_nil
    · intro u hu; exact absurd hu (List.not_mem_nil u)
    · intro c hc; exact absurd hc (List.not_mem_nil c)
    · intro c hc; exact absurd hc (List.not_mem_nil c)
  | step o now h hle hdel ih =>
    rcases o with _ | _ | m | ⟨p, confirm⟩ | ⟨p, confirm⟩ | ⟨p, m, ns⟩
    · exact stateInv_start ih hle
    · exact stateInv_stop ih hle
    · exact stateInv_commit m ih hle
    · exact StateInv.mono (stateInv_remove p confirm ih) (by omega)
    · exact StateInv.mono (stateInv_purge p confirm ih) (by omega)
    · cases hdel

/-- C9, amended.  At every state reachable from a fresh project by `start`,
`stop`, `commit`, `remove` and `purge` invocations with non-repeating clock
readings, the committed and soft-deleted stores are disjoint.  (The original
claim, quantified over *all* operations, fails: see
`stores_disjoint_counterexample` — `edit` can rewrite a committed record
into a value equal to an already soft-deleted record.) -/
theorem stores_disjoint_reachable {st : ProjectState} {t : Nat} (h : Reached st t) :
    StoresDisjoint st :=
  (reached_stateInv h).1

/-- C9 as frozen is false: an eight-command run — two sessions committed as
"A" and "B", "A" removed, then "B" edited back into exactly record "A" —
ends with the same record in both stores. -/
theorem stores_disjoint_counterexample :
    ¬ StoresDisjoint (applyOps
      [(TitOp.opStart, 0), (TitOp.opStop, 60), (TitOp.opCommit "A", 61),
       (TitOp.opStart, 120), (TitOp.opStop, 180), (TitOp.opCommit "B", 181),
       (TitOp.opRemove (gen_hash [⟨0, some 60⟩]) true, 182),
       (TitOp.opEdit (gen_hash [⟨120, some 180⟩]) "A" [⟨0, some 60⟩], 183)]
      emptyState) := by decide

/-- Concrete instance of the amended C9: a start/stop/commit/remove run
reaches a state with disjoint stores. -/
theorem stores_disjoint_reachable_witness :
    StoresDisjoint (applyOp (TitOp.opRemove "a" true) 3
      (applyOp (TitOp.opCommit "A") 2
        (applyOp TitOp.opStop 1
          (applyOp TitOp.opStart 0 emptyState)))) :=
  stores_disjoint_reachable
    (Reached.step (TitOp.opRemove "a" true) 3
      (Reached.step (TitOp.opCommit "A") 2
        (Reached.step TitOp.opStop 1
          (Reached.step TitOp.opStart 0 Reached.init (by omega) rfl)
          (by omega) rfl)
        (by omega) rfl)
      (by omega) rfl)
